import Mathlib

/-!
Verification development for the "hq" command-center repository: a checklist
parser, a section merger, a GitHub-backed project aggregator, and a mutation
CLI operating on a persisted JSON document.  The JavaScript sources are
embedded shallowly: line-oriented regex scanning becomes explicit character
list processing, mutation of the in-memory document becomes functional
update, and process-exit-without-write becomes an `Option`/outcome result.
-/

namespace HQ

/-! ## Character-level helpers (JavaScript regex semantics) -/

/-- The character class matched by a whitespace escape in a JavaScript regex
(and removed by `String.prototype.trim`): ASCII whitespace plus the Unicode
space characters. -/
def jsWs (c : Char) : Bool :=
  c == ' ' || c == '\t' || c == '\n' || c == '\r' ||
  c.toNat == 11 || c.toNat == 12 || c.toNat == 160 || c.toNat == 0x1680 ||
  (0x2000 ≤ c.toNat && c.toNat ≤ 0x200a) || c.toNat == 0x2028 || c.toNat == 0x2029 ||
  c.toNat == 0x202f || c.toNat == 0x205f || c.toNat == 0x3000 || c.toNat == 0xfeff

/-- ASCII lower-casing, the fragment of `toLowerCase` exercised by these
repository names, headings and task texts. -/
def lowerAscii (c : Char) : Char :=
  if 'A' ≤ c && c ≤ 'Z' then Char.ofNat (c.toNat + 32) else c

/-- ASCII upper-casing, the fragment of `toUpperCase` exercised here. -/
def upperAscii (c : Char) : Char :=
  if 'a' ≤ c && c ≤ 'z' then Char.ofNat (c.toNat - 32) else c

/-- A word character for the regex class used by `displayName`. -/
def isWordChar (c : Char) : Bool :=
  ('a' ≤ c && c ≤ 'z') || ('A' ≤ c && c ≤ 'Z') || ('0' ≤ c && c ≤ '9') || c == '_'

/-- Remove trailing whitespace (the right half of `trim`). -/
def trimEnd (l : List Char) : List Char :=
  (l.reverse.dropWhile jsWs).reverse

/-- `String.prototype.trim`: drop whitespace from both ends. -/
def trimBoth (l : List Char) : List Char :=
  trimEnd (l.dropWhile jsWs)

/-- The capture of a greedy whitespace-star (or plus) followed by a greedy
dot-plus group, as in the tails of the checklist and heading regexes: the
whitespace run is consumed greedily, backtracking one character when the
dot-plus group would otherwise be empty. -/
def wsStarCapture : List Char → List Char
  | [] => []
  | c :: t => if jsWs c then (if t.isEmpty then [c] else wsStarCapture t) else c :: t

/-- Split on newline characters, as `content.split('\n')` does: the empty
string yields one empty line, a trailing newline yields a trailing empty
line. -/
def splitLinesGo (cur : List Char) : List Char → List (List Char)
  | [] => [cur.reverse]
  | c :: rest =>
    if c == '\n' then cur.reverse :: splitLinesGo [] rest
    else splitLinesGo (c :: cur) rest

/-- All lines of a string, in order. -/
def splitLines (s : String) : List (List Char) :=
  splitLinesGo [] s.data

/-! ## Regex models for the markdown scanners -/

/-- Model of the bullet checklist regex used identically by both API variants
and the scanner: optional leading whitespace, a dash or star bullet, optional
whitespace, a bracketed marker that is a space, `x` or `X`, then a non-empty
tail whose whitespace-star/dot-plus capture is trimmed.  Returns the done
state and the trimmed text. -/
def matchChecklist (line : List Char) : Option (Bool × String) :=
  match line.dropWhile jsWs with
  | [] => none
  | b :: r1 =>
    if b == '-' || b == '*' then
      match r1.dropWhile jsWs with
      | lb :: m :: rb :: r3 =>
        if lb == '[' && rb == ']' && (m == ' ' || m == 'x' || m == 'X') then
          if r3.isEmpty then none
          else some (m == 'x' || m == 'X', (trimBoth (wsStarCapture r3)).asString)
        else none
      | _ => none
    else none

/-- Model of the heading regexes: a run of `lo` to `hi` hash marks anchored at
the start of the line, at least one whitespace character, then a non-empty
captured tail, trimmed.  A longer hash run never matches because the
character after the accepted run would have to be whitespace.  Returns the
hash count (the heading level) and the trimmed heading text. -/
def matchHeadingRange (lo hi : Nat) (line : List Char) : Option (Nat × String) :=
  let hashes := (line.takeWhile (fun c => c == '#')).length
  let r := line.drop hashes
  if lo ≤ hashes && hashes ≤ hi &&
      (match r.head? with | some c => jsWs c | none => false) && 2 ≤ r.length then
    some (hashes, (trimBoth (wsStarCapture r)).asString)
  else none

/-- The 1-to-3-level heading matcher of `parseChecklists` (both API copies). -/
def matchHeading13 (line : List Char) : Option String :=
  (matchHeadingRange 1 3 line).map (fun x => x.2)

/-! ## The checklist parser (both API variants, identical code) -/

/-- A parsed checklist item with its section attribution.  The JavaScript
object field `section` is named `sect` here because `section` is a Lean
keyword. -/
structure RawTask where
  done : Bool
  name : String
  sect : String
deriving DecidableEq, Repr

/-- Default section label derived from the source filename: a trailing
case-insensitive `.md` extension removed. -/
def stripMdSuffix (l : List Char) : List Char :=
  match l.reverse with
  | d :: m :: dot :: rest =>
    if dot == '.' && (m == 'm' || m == 'M') && (d == 'd' || d == 'D') then rest.reverse else l
  | _ => l

/-- The initial heading of `parseChecklists`: the filename with the `.md`
extension removed and every dash and underscore replaced by a space. -/
def defaultHeading (fileName : String) : String :=
  ((stripMdSuffix fileName.data).map (fun c => if c == '-' || c == '_' then ' ' else c)).asString

/-- The line loop of `parseChecklists`: a heading line updates the current
heading before the same line is (vacuously) tested as a checklist item. -/
def parseLinesGo (cur : String) : List (List Char) → List RawTask
  | [] => []
  | l :: ls =>
    let cur' := match matchHeading13 l with
      | some h => h
      | none => cur
    match matchChecklist l with
    | some (d, txt) => { done := d, name := txt, sect := cur' } :: parseLinesGo cur' ls
    | none => parseLinesGo cur' ls

/-- `parseChecklists(content, fileName)` of both API variants. -/
def parseChecklists (content fileName : String) : List RawTask :=
  parseLinesGo (defaultHeading fileName) (splitLines content)

/-! ## The PRD parser of the migration tool (`parsePRD`) -/

/-- A task inside a PRD section. -/
structure PTask where
  done : Bool
  text : String
deriving DecidableEq, Repr

/-- A PRD section: heading, heading level, tasks, and originating file(s). -/
structure PSection where
  heading : String
  level : Nat
  tasks : List PTask
  source : String
deriving DecidableEq, Repr

/-- Split a table row at the next pipe character: the cell contents and the
remainder after the pipe.  `none` when no pipe remains. -/
def splitCell : List Char → Option (List Char × List Char)
  | [] => none
  | c :: r => if c == '|' then some ([], r) else (splitCell r).map (fun x => (c :: x.1, x.2))

/-- Model of the table-row regex of `parsePRD`: a leading pipe, any first
cell, a non-empty captured second cell, any third cell, then a cell that is a
bracketed space/x/X marker surrounded by optional whitespace and closed by a
pipe.  Returns the raw captured name cell and the done state. -/
def tableMatch (line : List Char) : Option (List Char × Bool) :=
  match line with
  | c :: r =>
    if c == '|' then
      match splitCell r with
      | some (_, r1) =>
        match splitCell r1 with
        | some (c1, r2) =>
          if c1.isEmpty then none
          else
            match splitCell r2 with
            | some (_, r3) =>
              match r3.dropWhile jsWs with
              | lb :: m :: rb :: r4 =>
                if lb == '[' && rb == ']' && (m == ' ' || m == 'x' || m == 'X') then
                  match r4.dropWhile jsWs with
                  | p :: _ => if p == '|' then some (c1, m == 'x' || m == 'X') else none
                  | [] => none
                else none
              | _ => none
            | none => none
        | none => none
      | none => none
    else none
  | [] => none

/-- The guard on a captured table cell: pushed only when the trimmed text is
non-empty, not a run of dashes and whitespace, and not the literal header
word `task` (case-insensitively). -/
def tableTaskOk (txt : List Char) : Bool :=
  !txt.isEmpty && !(txt.all (fun c => c == '-' || jsWs c)) &&
    !(txt.map lowerAscii == ('t' :: 'a' :: 's' :: 'k' :: []))

/-- Flush the accumulated section when it has tasks, as `parsePRD` does both
on reaching a new heading and at end of input. -/
def flushSection : Option PSection → List PSection
  | some s => if s.tasks.isEmpty then [] else [s]
  | none => []

/-- The line loop of `parsePRD`: 2-to-3-level headings open a new section
(flushing the previous one), bullet checklist lines and table rows append to
the current section, and both kinds of task line are dropped when no section
is open.  Level-1 headings match nothing here. -/
def parsePRDGo (fileName : String) : List (List Char) → Option PSection → List PSection
  | [], cur => flushSection cur
  | l :: ls, cur =>
    match matchHeadingRange 2 3 l with
    | some (lvl, h) =>
      flushSection cur ++ parsePRDGo fileName ls (some { heading := h, level := lvl, tasks := [], source := fileName })
    | none =>
      match matchChecklist l, cur with
      | some (d, txt), some s =>
        parsePRDGo fileName ls (some { s with tasks := s.tasks ++ [{ done := d, text := txt }] })
      | _, _ =>
        match tableMatch l, cur with
        | some (c1, d), some s =>
          let taskText := trimBoth c1
          if tableTaskOk taskText then
            parsePRDGo fileName ls
              (some { s with tasks := s.tasks ++ [{ done := d, text := taskText.asString }] })
          else parsePRDGo fileName ls cur
        | _, _ => parsePRDGo fileName ls cur

/-- `parsePRD(content, fileName)` of the migration tool. -/
def parsePRD (content fileName : String) : List PSection :=
  parsePRDGo fileName (splitLines content) none

/-! ## The section merger of the migration tool -/

/-- Collapse each maximal run of characters satisfying `p` into a single
occurrence of `rep`, as a global regex replace of a one-or-more class does;
`inRun` records whether the previous character belonged to a run. -/
def collapseRunsGo (p : Char → Bool) (rep : Char) (inRun : Bool) : List Char → List Char
  | [] => []
  | c :: rest =>
    if p c then
      (if inRun then [] else [rep]) ++ collapseRunsGo p rep true rest
    else c :: collapseRunsGo p rep false rest

def collapseRuns (p : Char → Bool) (rep : Char) (l : List Char) : List Char :=
  collapseRunsGo p rep false l

/-- Drop a single leading dash, as the anchored half of the final regex of
`slugify` does. -/
def dropLeadDash (l : List Char) : List Char :=
  match l with
  | c :: rest => if c == '-' then rest else l
  | [] => []

/-- `slugify(text)` of the migration tool: lower-case, remove everything that
is not a lower-case letter, digit, whitespace or dash, turn whitespace runs
into dashes, collapse dash runs, strip one dash from each end, and truncate
to 50 characters. -/
def slugify (text : String) : String :=
  let l := text.data.map lowerAscii
  let l := l.filter (fun c => ('a' ≤ c && c ≤ 'z') || ('0' ≤ c && c ≤ '9') || jsWs c || c == '-')
  let l := collapseRuns jsWs '-' l
  let l := collapseRuns (fun c => c == '-') '-' l
  let l := dropLeadDash ((dropLeadDash l.reverse).reverse)
  (l.take 50).asString

/-- Merge a later same-key section into an existing one: tasks are appended
when their exact text is absent from the snapshot of the existing task list
taken before this section's merge began, and the sources are comma-joined. -/
def mergeTasksInto (ex s : PSection) : PSection :=
  { ex with
    tasks := ex.tasks ++ s.tasks.filter (fun t => !(ex.tasks.any (fun e => e.text == t.text))),
    source := ex.source ++ ", " ++ s.source }

/-- Insertion-ordered map update used by the merge loop: an existing key is
merged in place, a new key is appended at the end. -/
def mergeUpd (key : String) (s : PSection) : List (String × PSection) → List (String × PSection)
  | [] => [(key, s)]
  | (k, ex) :: rest =>
    if k == key then (k, mergeTasksInto ex s) :: rest
    else (k, ex) :: mergeUpd key s rest

/-- Step 3 of `migrateRepo`: deduplicate sections whose headings slugify to
the same key, in first-seen order. -/
def mergeSections (sections : List PSection) : List PSection :=
  (sections.foldl (fun acc s => mergeUpd (slugify s.heading) s acc) []).map (fun x => x.2)

/-! ## Claim-side reference definitions for the parser

These are written from the specification's description of a well-formed
bullet checklist line and of heading tracking, to be compared with the regex
models above. -/

/-- After the bullet of a well-formed checklist line: optional whitespace, a
bracketed space/x/X marker, and a non-empty free-text tail; the produced
record carries the done state and the trimmed free text. -/
def specAfterBullet (r1 : List Char) : Option (Bool × String) :=
  match r1.dropWhile jsWs with
  | lb :: m :: rb :: freeText =>
    if lb == '[' && rb == ']' then
      if freeText.isEmpty then none
      else if m == 'x' || m == 'X' then some (true, (trimBoth freeText).asString)
      else if m == ' ' then some (false, (trimBoth freeText).asString)
      else none
    else none
  | _ => none

/-- A well-formed bullet checklist line as the specification describes it:
after leading whitespace, a dash or star bullet, then a space/x/X checkbox
and free text; done exactly when the letter is `x` or `X` case-insensitively,
text the trimmed free text. -/
def specChecklistLine (line : List Char) : Option (Bool × String) :=
  match line.dropWhile jsWs with
  | [] => none
  | b :: r1 => if b == '-' || b == '*' then specAfterBullet r1 else none

/-- Strip a heading marker of one to three levels from the start of a line,
returning the level and the rest; four or more hash marks are not a 1-3-level
marker. -/
def specHeadingLevel (l : List Char) : Option (Nat × List Char) :=
  match l with
  | [] => none
  | c1 :: t1 =>
    if c1 = '#' then
      match t1 with
      | [] => some (1, t1)
      | c2 :: t2 =>
        if c2 = '#' then
          match t2 with
          | [] => some (2, t2)
          | c3 :: t3 =>
            if c3 = '#' then
              match t3 with
              | [] => some (3, t3)
              | c4 :: _ => if c4 = '#' then none else some (3, t3)
            else some (2, t2)
        else some (1, t1)
    else none

/-- A heading line of one to three levels as the specification describes it:
the marker, at least one whitespace character, and a captured title, trimmed
(the title may trim to the empty string). -/
def specHeading13 (line : List Char) : Option String :=
  match specHeadingLevel line with
  | some (_, r) =>
    match r.head? with
    | some c => if jsWs c && 2 ≤ r.length then some ((trimBoth r).asString) else none
    | none => none
  | none => none

/-- The specification's walk for heading tracking: a 1-3-level heading sets
the context for subsequent lines, a checklist line is tagged with the current
context, every other line changes nothing. -/
def specTagged (cur : String) : List (List Char) → List RawTask
  | [] => []
  | l :: ls =>
    match specHeading13 l with
    | some h => specTagged h ls
    | none =>
      match specChecklistLine l with
      | some (d, t) => { done := d, name := t, sect := cur } :: specTagged cur ls
      | none => specTagged cur ls

/-- A line opening with a level-1 heading marker: a single leading hash. -/
def isH1 (l : List Char) : Bool :=
  match l with
  | c :: r => c == '#' && !(r.head? == some '#')
  | [] => false

/-! ## The scanner CLI's document model

The persisted `data.json` tree mutated by `--mark-done` and `--set-current`.
An absent JavaScript field (`delete x.current`, never-set `completedAt`)
is modelled as `false` / `none`; an absent `tasks`/`subtasks` array iterates
like an empty one everywhere these commands look, and is modelled as `[]`. -/

structure Subtask where
  id : String
  name : String := ""
  done : Bool := false
  current : Bool := false
  completedAt : Option String := none
deriving DecidableEq, Repr

structure Task where
  id : String
  name : String := ""
  done : Bool := false
  current : Bool := false
  completedAt : Option String := none
  subtasks : List Subtask := []
deriving DecidableEq, Repr

structure Milestone where
  id : String
  name : String := ""
  done : Bool := false
  current : Bool := false
  completedAt : Option String := none
  tasks : List Task := []
deriving DecidableEq, Repr

structure Project where
  id : String
  name : String := ""
  status : String := ""
  milestones : List Milestone := []
deriving DecidableEq, Repr

structure Meta where
  lastUpdated : String := ""
  lastScanType : String := ""
deriving DecidableEq, Repr

structure Document where
  meta : Meta := {}
  projects : List Project := []
deriving DecidableEq, Repr

/-- The kind of node found by `findTaskById`. -/
inductive NodeKind where
  | milestone
  | task
  | subtask
deriving DecidableEq, Repr

/-- The result of `findTaskById`: the kind of the first match in the
depth-first order milestone id, then per task its id and then its subtasks;
for a subtask match the surrounding sibling list is recorded (the `parent`
reference the JavaScript keeps). -/
structure FindRes where
  kind : NodeKind
  sibs : List Subtask := []
deriving DecidableEq, Repr

/-- Search one milestone's task list, in `findTaskById` order. -/
def findTasks (id : String) : List Task → Option FindRes
  | [] => none
  | t :: rest =>
    if t.id = id then some { kind := .task }
    else if t.subtasks.any (fun s => s.id = id) then some { kind := .subtask, sibs := t.subtasks }
    else findTasks id rest

/-- Search one project's milestone list. -/
def findMs (id : String) : List Milestone → Option FindRes
  | [] => none
  | m :: rest =>
    if m.id = id then some { kind := .milestone }
    else
      match findTasks id m.tasks with
      | some r => some r
      | none => findMs id rest

/-- `findTaskById` over the whole projects array. -/
def findPs (id : String) : List Project → Option FindRes
  | [] => none
  | p :: rest =>
    match findMs id p.milestones with
    | some r => some r
    | none => findPs id rest

/-- All node ids of the document, in `findTaskById` traversal order. -/
def taskIds (t : Task) : List String :=
  t.id :: t.subtasks.map (fun s => s.id)

def msIds (m : Milestone) : List String :=
  m.id :: m.tasks.flatMap taskIds

def projIds (p : Project) : List String :=
  p.milestones.flatMap msIds

def docIds (ps : List Project) : List String :=
  ps.flatMap projIds

/-- All subtasks of the document, flattened in traversal order. -/
def allSubs (ps : List Project) : List Subtask :=
  ((ps.flatMap (fun p => p.milestones)).flatMap (fun m => m.tasks)).flatMap
    (fun t => t.subtasks)

/-- Current-flag counts at each level of the tree. -/
def countCurMilestones (ps : List Project) : Nat :=
  ((ps.flatMap (fun p => p.milestones)).filter (fun m => m.current)).length

def countCurTasks (ps : List Project) : Nat :=
  (((ps.flatMap (fun p => p.milestones)).flatMap (fun m => m.tasks)).filter
    (fun t => t.current)).length

def countCurSubtasks (ps : List Project) : Nat :=
  ((allSubs ps).filter (fun s => s.current)).length

/-- Ids of the subtasks whose current flag is set, in traversal order. -/
def currentSubIds (ps : List Project) : List String :=
  ((allSubs ps).filter (fun s => s.current)).map (fun s => s.id)

/-- `clearCurrentFlags`: delete every current flag at the milestone, task and
subtask levels of the whole document. -/
def clearSub (s : Subtask) : Subtask := { s with current := false }

def clearTask (t : Task) : Task :=
  { t with current := false, subtasks := t.subtasks.map clearSub }

def clearMilestone (m : Milestone) : Milestone :=
  { m with current := false, tasks := m.tasks.map clearTask }

def clearProject (p : Project) : Project :=
  { p with milestones := p.milestones.map clearMilestone }

def clearCurrentFlags (ps : List Project) : List Project :=
  ps.map clearProject

/-- The mutation `--mark-done` applies to the matched node. -/
def markSub (now : String) (s : Subtask) : Subtask :=
  { s with done := true, completedAt := some now, current := false }

/-- Auto-advance: set the current flag of the head of the remaining sibling
list, when there is one. -/
def advance : List Subtask → List Subtask
  | [] => []
  | n :: r => { n with current := true } :: r

/-- `cmdMarkDone` on a subtask list: mark the first subtask carrying the id
and auto-advance to its immediately following sibling. -/
def markDoneSubs (now id : String) : List Subtask → Option (List Subtask)
  | [] => none
  | s :: rest =>
    if s.id = id then some (markSub now s :: advance rest)
    else (markDoneSubs now id rest).map (fun l => s :: l)

/-- `cmdMarkDone` on a task list: a matching task id wins over its subtasks,
there is no auto-advance at the task level. -/
def markDoneTasks (now id : String) : List Task → Option (List Task)
  | [] => none
  | t :: rest =>
    if t.id = id then
      some ({ t with done := true, completedAt := some now, current := false } :: rest)
    else
      match markDoneSubs now id t.subtasks with
      | some subs => some ({ t with subtasks := subs } :: rest)
      | none => (markDoneTasks now id rest).map (fun l => t :: l)

def markDoneMs (now id : String) : List Milestone → Option (List Milestone)
  | [] => none
  | m :: rest =>
    if m.id = id then
      some ({ m with done := true, completedAt := some now, current := false } :: rest)
    else
      match markDoneTasks now id m.tasks with
      | some ts => some ({ m with tasks := ts } :: rest)
      | none => (markDoneMs now id rest).map (fun l => m :: l)

def markDonePs (now id : String) : List Project → Option (List Project)
  | [] => none
  | p :: rest =>
    match markDoneMs now id p.milestones with
    | some ms => some ({ p with milestones := ms } :: rest)
    | none => (markDonePs now id rest).map (fun l => p :: l)

/-- `cmdMarkDone(taskId)`: locate the node, mutate it, auto-advance for a
subtask, and persist with a refreshed `lastUpdated` stamp; `none` models the
not-found path that exits the process without writing. -/
def cmdMarkDone (now id : String) (d : Document) : Option Document :=
  (markDonePs now id d.projects).map
    (fun ps => { meta := { d.meta with lastUpdated := now }, projects := ps })

/-- Set the current flag of the first node carrying the id, in the same
traversal order as `findTaskById` (the found reference is mutated after the
global clear). -/
def setCurSubs (id : String) : List Subtask → Option (List Subtask)
  | [] => none
  | s :: rest =>
    if s.id = id then some ({ s with current := true } :: rest)
    else (setCurSubs id rest).map (fun l => s :: l)

def setCurTasks (id : String) : List Task → Option (List Task)
  | [] => none
  | t :: rest =>
    if t.id = id then some ({ t with current := true } :: rest)
    else
      match setCurSubs id t.subtasks with
      | some subs => some ({ t with subtasks := subs } :: rest)
      | none => (setCurTasks id rest).map (fun l => t :: l)

def setCurMs (id : String) : List Milestone → Option (List Milestone)
  | [] => none
  | m :: rest =>
    if m.id = id then some ({ m with current := true } :: rest)
    else
      match setCurTasks id m.tasks with
      | some ts => some ({ m with tasks := ts } :: rest)
      | none => (setCurMs id rest).map (fun l => m :: l)

def setCurPs (id : String) : List Project → Option (List Project)
  | [] => none
  | p :: rest =>
    match setCurMs id p.milestones with
    | some ms => some ({ p with milestones := ms } :: rest)
    | none => (setCurPs id rest).map (fun l => p :: l)

/-- Does a milestone own a task or subtask with this id, as the parent-marking
loop of `cmdSetCurrent` tests. -/
def msContains (id : String) (m : Milestone) : Bool :=
  m.tasks.any (fun t => t.id == id || t.subtasks.any (fun s => s.id == id))

/-- The parent-marking loop body: within one project, mark the first
milestone owning the id and stop (the `break` leaves only the inner loop, so
every project is scanned). -/
def markParentMs (id : String) : List Milestone → List Milestone
  | [] => []
  | m :: rest =>
    if msContains id m then { m with current := true } :: rest
    else m :: markParentMs id rest

/-- `cmdSetCurrent(taskId)`: locate the node, clear every current flag in the
document, set the matched node's flag, and for a task or subtask match also
mark the owning milestone in every project; persist with a refreshed
`lastUpdated` stamp.  `none` models the not-found exit without a write. -/
def cmdSetCurrent (now id : String) (d : Document) : Option Document :=
  match findPs id d.projects with
  | none => none
  | some r =>
    let ps0 := clearCurrentFlags d.projects
    let ps1 := (setCurPs id ps0).getD ps0
    let ps2 :=
      if r.kind = .milestone then ps1
      else ps1.map (fun p => { p with milestones := markParentMs id p.milestones })
    some { meta := { d.meta with lastUpdated := now }, projects := ps2 }

/-- Subtasks of a task list / of a milestone list, flattened in order. -/
def subsOfTasks (L : List Task) : List Subtask :=
  L.flatMap (fun t => t.subtasks)

def subsOfMs (ms : List Milestone) : List Subtask :=
  subsOfTasks (ms.flatMap (fun m => m.tasks))

/-- Normalize the three fields `--mark-done` may change on a subtask; what
remains is everything the command must leave untouched. -/
def eraseSub (s : Subtask) : Subtask :=
  { s with done := false, current := false, completedAt := none }

def eraseSubsTask (t : Task) : Task :=
  { t with subtasks := t.subtasks.map eraseSub }

def eraseSubsMs (m : Milestone) : Milestone :=
  { m with tasks := m.tasks.map eraseSubsTask }

def eraseSubsProject (p : Project) : Project :=
  { p with milestones := p.milestones.map eraseSubsMs }

/-- Does the first subtask carrying the id have a following sibling? -/
def nextSiblingExists (id : String) : List Subtask → Bool
  | [] => false
  | s :: rest => if s.id = id then !rest.isEmpty else nextSiblingExists id rest

/-- The id of the sibling immediately following the first subtask carrying
the id, when it exists. -/
def nextSiblingId (id : String) : List Subtask → Option String
  | [] => none
  | s :: rest =>
    if s.id = id then rest.head?.map (fun n => n.id) else nextSiblingId id rest

/-! ## The scanner CLI dispatch -/

/-- `args[args.indexOf(flag) + 1]`. -/
def argAfter (flag : String) : List String → Option String
  | [] => none
  | a :: rest => if a = flag then rest.head? else argAfter flag rest

/-- What one scanner invocation does: write the mutated document, show help
or status, delegate to the scan path, or exit non-zero without writing. -/
inductive CliOutcome where
  | wrote (d : Document)
  | helped
  | statusShown
  | scanned (projectId : Option String)
  | exitErr
deriving DecidableEq, Repr

/-- The argument dispatch of the scanner CLI.  `store` is the result of
reading the data file (`none`: missing or unparsable, which `loadData` turns
into a non-zero exit); `loadData` runs only inside each command, after the
missing-argument check.  The scan paths touch the filesystem and are left
abstract as `scanned`. -/
def runCli (now : String) (args : List String) (store : Option Document) : CliOutcome :=
  if args.contains "--help" || args.contains "-h" then .helped
  else if args.contains "--status" then
    match store with
    | none => .exitErr
    | some _ => .statusShown
  else if args.contains "--mark-done" then
    match argAfter "--mark-done" args with
    | none => .exitErr
    | some id =>
      if id = "" then .exitErr
      else
        match store with
        | none => .exitErr
        | some d =>
          match cmdMarkDone now id d with
          | none => .exitErr
          | some d' => .wrote d'
  else if args.contains "--set-current" then
    match argAfter "--set-current" args with
    | none => .exitErr
    | some id =>
      if id = "" then .exitErr
      else
        match store with
        | none => .exitErr
        | some d =>
          match cmdSetCurrent now id d with
          | none => .exitErr
          | some d' => .wrote d'
  else if args.contains "--project" then .scanned (argAfter "--project" args)
  else .scanned none

/-! ## The dynamic-discovery aggregator (API handler, version 3)

The network-facing pieces (repository discovery, tree and content fetches,
commit listing) are modelled as inputs: one `RepoInput` per discovered
repository, carrying exactly the data the handler reads from the API.
`Date.now()` is the `now` parameter, in milliseconds since the epoch. -/

structure Commit where
  message : String
  date : String
  sha : String
deriving DecidableEq, Repr

structure RepoInput where
  name : String
  owner : String
  description : String := ""
  pushedAt : Option Int := none
  tree : List String := []
  files : List (String × String) := []
  commits : Option (List Commit) := none
deriving DecidableEq, Repr

structure ATask where
  id : String
  name : String
  done : Bool
  current : Bool := false
deriving DecidableEq, Repr

structure AMilestone where
  id : String
  name : String
  done : Bool
  current : Bool
  source : Option String := none
  tasks : List ATask
deriving DecidableEq, Repr

structure LastCommit where
  message : String
  date : String
  sha : String
deriving DecidableEq, Repr

structure AProject where
  id : String
  name : String
  description : String
  status : String
  priority : Nat
  color : String
  repo : String
  owner : String
  prdFiles : Nat
  lastCommit : Option LastCommit
  daysSinceUpdate : Option Int
  totalItems : Nat
  doneItems : Nat
  milestones : List AMilestone
deriving DecidableEq, Repr

structure AMeta where
  lastUpdated : String
  lastScanType : String
  version : String
  projectCount : Nat
  sources : List String
deriving DecidableEq, Repr

structure ADoc where
  meta : AMeta
  projects : List AProject
deriving DecidableEq, Repr

/-- Lower-case a whole string (ASCII fragment). -/
def lowerStr (s : String) : String :=
  (s.data.map lowerAscii).asString

/-- `s.slice(0, n)` for the ASCII strings used here. -/
def strTake (n : Nat) (s : String) : String :=
  (s.data.take n).asString

/-- `message.split('\n')[0]`. -/
def firstLine (s : String) : String :=
  (s.data.takeWhile (fun c => !(c == '\n'))).asString

/-- Is `tok` a contiguous substring of `l`? -/
def isInfixL (tok : List Char) : List Char → Bool
  | [] => tok.isEmpty
  | l@(_ :: rest) => tok.isPrefixOf l || isInfixL tok rest

/-- The PRD filename pattern: one of the tokens prd/roadmap/todo/checklist/
tasks occurring case-insensitively, followed by anything, with a final `.md`
(the dot-star of the regex never spans a newline, which no path contains). -/
def prdFileMatch (path : String) : Bool :=
  let l := path.data.map lowerAscii
  ('.' :: 'm' :: 'd' :: []).isSuffixOf l &&
    (["prd", "roadmap", "todo", "checklist", "tasks"].any
      (fun tok => isInfixL tok.data (l.take (l.length - 3))))

/-- The 32-bit two's-complement wrap applied by the shift and the bitwise-or
of the name hash. -/
def toInt32 (x : Int) : Int :=
  (x + 2147483648) % 4294967296 - 2147483648

/-- One step of `getColor`'s hash: `hash = ((hash << 5) - hash) + code` with
the subsequent coercion back to a 32-bit integer. -/
def hashStep (h : Int) (c : Nat) : Int :=
  toInt32 (toInt32 (h * 32) - h + c)

def COLORS : List String :=
  ["#8b5cf6", "#3b82f6", "#ef4444", "#f59e0b", "#06b6d4",
   "#22c55e", "#f97316", "#ec4899", "#a855f7", "#14b8a6",
   "#e11d48", "#6366f1", "#84cc16", "#f43f5e", "#0ea5e9",
   "#d946ef", "#fb923c", "#4ade80", "#38bdf8", "#c084fc"]

/-- `getColor(name)`: deterministic hash of the repository name into the
fixed palette. -/
def getColor (name : String) : String :=
  let h := name.data.foldl (fun h c => hashStep h c.toNat) 0
  (COLORS.get? (h.natAbs % COLORS.length)).getD ""

/-- Word-boundary upper-casing pass of `displayName`; the boundary is
computed on the original characters. -/
def upWordStartsGo (prevWord : Bool) : List Char → List Char
  | [] => []
  | c :: rest =>
    (if !prevWord && isWordChar c then upperAscii c else c) :: upWordStartsGo (isWordChar c) rest

/-- `displayName(repoName)`: dash/underscore runs become single spaces, then
every word start is upper-cased. -/
def displayName (repoName : String) : String :=
  (upWordStartsGo false (collapseRuns (fun c => c == '-' || c == '_') ' ' repoName.data)).asString

/-- The id normalization of the version-3 aggregator: lower-case, runs of
characters outside lower-case letters and digits become single dashes. -/
def mkAggId (s : String) : String :=
  (collapseRuns (fun c => !(('a' ≤ c && c ≤ 'z') || ('0' ≤ c && c ≤ '9'))) '-'
    (s.data.map lowerAscii)).asString

/-- Group parsed tasks by section heading, preserving first-seen key order
as a JavaScript object with string keys does for these non-numeric headings;
an empty section label falls back to the file path. -/
def upsertAppend (key : String) (t : RawTask) :
    List (String × List RawTask) → List (String × List RawTask)
  | [] => [(key, [t])]
  | (k, l) :: rest =>
    if k == key then (k, l ++ [t]) :: rest else (k, l) :: upsertAppend key t rest

def groupBySection (file : String) (ts : List RawTask) : List (String × List RawTask) :=
  ts.foldl (fun acc t => upsertAppend (if t.sect = "" then file else t.sect) t acc) []

/-- Append the milestones of one PRD file's grouped sections, reproducing the
push loop: the milestone is current when it is not all-done and every
previously pushed milestone is done, task ids embed the pre-push milestone
count, and a task is current when it is undone and all its section
predecessors are done. -/
def buildPrdMilestones (repoName file : String) (groups : List (String × List RawTask))
    (acc : List AMilestone) : List AMilestone :=
  groups.foldl (fun ms g =>
    let sectionTasks := g.2
    let doneTasks := (sectionTasks.filter (fun t => t.done)).length
    let allDone := doneTasks == sectionTasks.length
    ms ++ [{ id := strTake 50 (mkAggId (repoName ++ "-" ++ g.1)),
             name := g.1,
             done := allDone,
             current := !allDone && ms.all (fun m => m.done),
             source := some file,
             tasks := sectionTasks.enum.map (fun it =>
               { id := mkAggId (repoName ++ "-m" ++ toString ms.length ++ "-t" ++ toString it.1),
                 name := it.2.name,
                 done := it.2.done,
                 current := !it.2.done && (sectionTasks.take it.1).all (fun st => st.done) }) }]) acc

/-- The fallback milestone made of recent commit messages, all done and the
milestone itself current. -/
def activityMilestone (repoName : String) (cs : List Commit) : AMilestone :=
  { id := lowerStr (repoName ++ "-activity"),
    name := "Recent Activity",
    done := false,
    current := true,
    tasks := (cs.take 5).enum.map (fun ic =>
      { id := lowerStr (repoName ++ "-c" ++ toString ic.1),
        name := strTake 80 (firstLine ic.2.message),
        done := true }) }

/-- Mark the first undone milestone current when none is. -/
def markFirstUndone : List AMilestone → List AMilestone
  | [] => []
  | m :: rest => if m.done then m :: markFirstUndone rest else { m with current := true } :: rest

/-- Version-3 status derivation from days since the last push. -/
def statusV3 (daysSinceUpdate : Option Int) : String :=
  match daysSinceUpdate with
  | none => "active"
  | some d => if d > 90 then "paused" else if d > 30 then "idle" else "active"

/-- Version-2 status derivation (configured variant): the configured status,
defaulting to active when absent or empty, with an active status demoted to
paused after more than 30 days without a push. -/
def statusV2 (configStatus : Option String) (daysSinceUpdate : Option Int) : String :=
  let status := match configStatus with
    | none => "active"
    | some s => if s = "" then "active" else s
  match daysSinceUpdate with
  | some d => if d > 30 ∧ status = "active" then "paused" else status
  | none => status

/-- `Math.floor((Date.now() - lastPush.getTime()) / 86400000)`. -/
def daysSince (now : Int) (pushedAt : Option Int) : Option Int :=
  pushedAt.map (fun p => Int.fdiv (now - p) 86400000)

/-- `buildProjectData(repo, index)` with the day count already computed: the
single use of the clock is the `daysSinceUpdate` value. -/
def buildProjectCore (days : Option Int) (index : Nat) (r : RepoInput) : AProject :=
  let prdFiles := r.tree.filter prdFileMatch
  let prdResults := prdFiles.map (fun f => (f, parseChecklists ((List.lookup f r.files).getD "") f))
  let ms0 := prdResults.foldl (fun ms fr =>
    if fr.2.isEmpty then ms
    else buildPrdMilestones r.name fr.1 (groupBySection fr.1 fr.2) ms) []
  let ms1 :=
    if ms0.isEmpty then
      match r.commits with
      | some cs => if cs.isEmpty then ms0 else [activityMilestone r.name cs]
      | none => ms0
    else ms0
  let milestones := if ms1.any (fun m => m.current) then ms1 else markFirstUndone ms1
  let allTs := milestones.flatMap (fun m => m.tasks)
  { id := lowerStr r.name,
    name := displayName r.name,
    description := r.description,
    status := statusV3 days,
    priority := index,
    color := getColor r.name,
    repo := "github.com/" ++ r.owner ++ "/" ++ r.name,
    owner := r.owner,
    prdFiles := prdFiles.length,
    lastCommit :=
      match r.commits with
      | some (c :: _) => some { message := firstLine c.message, date := c.date, sha := strTake 7 c.sha }
      | _ => none,
    daysSinceUpdate := days,
    totalItems := allTs.length,
    doneItems := (allTs.filter (fun t => t.done)).length,
    milestones := milestones }

/-- `buildProjectData(repo, index)` as called by the handler. -/
def buildProjectV3 (now : Int) (index : Nat) (r : RepoInput) : AProject :=
  buildProjectCore (daysSince now r.pushedAt) index r

/-- The handler's batched build: batches preserve the discovered order and
the running index, so the result is an indexed map. -/
def buildAll (now : Int) (index : Nat) : List RepoInput → List AProject
  | [] => []
  | r :: rest => buildProjectV3 now index r :: buildAll now (index + 1) rest

/-- `x || dflt` for a possibly-absent JavaScript number: absent and zero are
both falsy. -/
def orFalsy (v : Option Int) (dflt : Int) : Int :=
  match v with
  | none => dflt
  | some x => if x = 0 then dflt else x

/-- `statusOrder[status]` of the handler's comparator. -/
def statusOrder (s : String) : Option Int :=
  if s = "active" then some 0
  else if s = "idle" then some 1
  else if s = "paused" then some 2
  else none

/-- The handler's three-key comparator: effective status rank (through the
falsy-default), PRD file count descending, then effective days-since-update
ascending. -/
def cmpProjects (a b : AProject) : Int :=
  let sd := orFalsy (statusOrder a.status) 2 - orFalsy (statusOrder b.status) 2
  if sd ≠ 0 then sd
  else
    let pd := (b.prdFiles : Int) - (a.prdFiles : Int)
    if pd ≠ 0 then pd
    else orFalsy a.daysSinceUpdate 999 - orFalsy b.daysSinceUpdate 999

/-- Stable insertion step for the sort: an element moves past exactly the
earlier elements that compare strictly greater. -/
def insertProj (x : AProject) : List AProject → List AProject
  | [] => [x]
  | y :: ys => if cmpProjects y x ≤ 0 then y :: insertProj x ys else x :: y :: ys

/-- `projects.sort(cmp)`: a stable sort by the comparator, as the engine's
stable `Array.prototype.sort` performs for this consistent comparator. -/
def sortProjects (l : List AProject) : List AProject :=
  l.foldl (fun acc x => insertProj x acc) []

/-- The version-3 handler on its discovered inputs.  `nowIso` is the ISO
rendering of the same instant `now` samples. -/
def handlerV3 (now : Int) (nowIso : String) (repos : List RepoInput) : ADoc :=
  let projects := sortProjects (buildAll now 0 repos)
  { meta := { lastUpdated := nowIso,
              lastScanType := "live-api",
              version := "3.0.0",
              projectCount := projects.length,
              sources := ["nolimitjonesinc", "Nolimit-Labs-Projects"] },
    projects := projects }

/-! ## Concrete instances used by the counterexamples and witnesses -/

def ce4a : PSection :=
  { heading := "My Sect", level := 2, tasks := [{ done := false, text := "a" }], source := "f1" }

def ce4b : PSection :=
  { heading := "my sect!", level := 2,
    tasks := [{ done := false, text := "b" }, { done := false, text := "b" }], source := "f2" }

def ce5active : AProject :=
  { id := "a", name := "A", description := "", status := "active", priority := 0, color := "",
    repo := "", owner := "", prdFiles := 3, lastCommit := none, daysSinceUpdate := some 1,
    totalItems := 0, doneItems := 0, milestones := [] }

def ce5idle : AProject :=
  { id := "b", name := "B", description := "", status := "idle", priority := 1, color := "",
    repo := "", owner := "", prdFiles := 0, lastCommit := none, daysSinceUpdate := some 200,
    totalItems := 0, doneItems := 0, milestones := [] }

def ce7repo : RepoInput :=
  { name := "r", owner := "o", pushedAt := some 0, commits := some [] }

def witRepo : RepoInput :=
  { name := "w", owner := "o" }

def ce1doc : Document :=
  { projects := [{ id := "p", milestones := [{ id := "m", tasks := [{ id := "t", subtasks := [{ id := "s" }] }] }] }] }

def ce2sibs : List Subtask :=
  [{ id := "a" }, { id := "b" }, { id := "c", current := true }]

def ce2doc : Document :=
  { projects := [{ id := "p", milestones := [{ id := "m", tasks := [{ id := "t", subtasks := ce2sibs }] }] }] }

def wit2sibs : List Subtask :=
  [{ id := "s1", current := true }, { id := "s2" }]

def wit2doc : Document :=
  { projects := [{ id := "p", milestones := [{ id := "m", tasks := [{ id := "t", subtasks := wit2sibs }] }] }] }

def wit10sibs : List Subtask :=
  [{ id := "u1" }, { id := "u2", done := true }]

def wit10doc : Document :=
  { projects := [{ id := "q", milestones := [{ id := "n", tasks := [{ id := "v", subtasks := wit10sibs }] }] }] }

def wit1doc : Document :=
  { projects := [{ id := "p1", milestones := [{ id := "m1", tasks := [{ id := "t1", subtasks := [{ id := "s1" }] }, { id := "t2" }] }, { id := "m2" }] }] }

def wit9doc : Document :=
  { projects := [{ id := "p", milestones := [{ id := "m" }] }] }

/-! # Theorems -/

/-! ## Generic list facts -/

theorem filter_eq_nil_of_all_false {α : Type} (p : α → Bool) (l : List α)
    (h : ∀ x ∈ l, p x = false) : l.filter p = [] := by
  induction l with
  | nil => rfl
  | cons a l ih =>
    rw [List.filter_cons, h a (List.mem_cons_self a l), if_neg (by simp)]
    exact ih (fun x hx => h x (List.mem_cons_of_mem a hx))

theorem length_filterMap_eq_countP {α β : Type} (f : α → Option β) (l : List α) :
    (l.filterMap f).length = l.countP (fun x => (f x).isSome) := by
  induction l with
  | nil => rfl
  | cons a l ih =>
    rw [List.filterMap_cons, List.countP_cons]
    cases h : f a <;> simp [h, ih]

/-! ## The checklist regex model meets the specification's line description -/

theorem trimBoth_wsStarCapture (r : List Char) : trimBoth (wsStarCapture r) = trimBoth r := by
  induction r with
  | nil => rfl
  | cons c t ih =>
    by_cases hc : jsWs c = true
    · cases t with
      | nil => simp [wsStarCapture, hc]
      | cons d t' =>
        have : wsStarCapture (c :: d :: t') = wsStarCapture (d :: t') := by
          simp [wsStarCapture, hc]
        rw [this, ih]
        simp [trimBoth, List.dropWhile_cons, hc]
    · simp [wsStarCapture, hc]

theorem matchChecklist_eq_spec (line : List Char) :
    matchChecklist line = specChecklistLine line := by
  unfold matchChecklist specChecklistLine specAfterBullet
  cases h0 : line.dropWhile jsWs with
  | nil => rfl
  | cons b r1 =>
    cases hb : (b == '-' || b == '*') with
    | false => simp [hb]
    | true =>
      simp only [hb, if_true]
      cases h1 : r1.dropWhile jsWs with
      | nil => rfl
      | cons lb r2 =>
        cases r2 with
        | nil => rfl
        | cons m r2' =>
          cases r2' with
          | nil => rfl
          | cons rb r3 =>
            by_cases hlb : lb = '['
            · by_cases hrb : rb = ']'
              · by_cases hr3 : r3.isEmpty = true
                · by_cases hx : m = 'x' <;> by_cases hX : m = 'X' <;>
                    by_cases hsp : m = ' ' <;>
                    simp [hlb, hrb, hr3, hx, hX, hsp]
                · by_cases hx : m = 'x'
                  · simp [hlb, hrb, hr3, hx, trimBoth_wsStarCapture]
                  · by_cases hX : m = 'X'
                    · simp [hlb, hrb, hr3, hx, hX, trimBoth_wsStarCapture]
                    · by_cases hsp : m = ' ' <;> simp [hlb, hrb, hr3, hx, hX, hsp, trimBoth_wsStarCapture]
              · simp [hlb, hrb]
            · simp [hlb]

theorem parseLinesGo_projection (ls : List (List Char)) : ∀ cur : String,
    (parseLinesGo cur ls).map (fun t => (t.done, t.name)) = ls.filterMap specChecklistLine := by
  induction ls with
  | nil => intro cur; rfl
  | cons l ls ih =>
    intro cur
    have hmc := matchChecklist_eq_spec l
    cases hh : matchHeading13 l <;> cases hs : specChecklistLine l <;>
      simp [parseLinesGo, hmc, hh, hs, List.filterMap_cons, ih]

/-- C3: for every markdown input, the checklist parser emits exactly the
records of the well-formed bullet checklist lines (as the specification
describes them), in original line order, with done-state matching the
bracket letter case-insensitively and text the trimmed free text; malformed
lines are ignored and empty content yields the empty sequence. -/
theorem parseChecklists_wellFormed_lines (content fileName : String) :
    (parseChecklists content fileName).map (fun t => (t.done, t.name))
        = (splitLines content).filterMap specChecklistLine
      ∧ (parseChecklists content fileName).length
        = (splitLines content).countP (fun l => (specChecklistLine l).isSome)
      ∧ parseChecklists "" fileName = [] := by
  refine ⟨parseLinesGo_projection _ _, ?_, ?_⟩
  · rw [← length_filterMap_eq_countP, ← parseLinesGo_projection (splitLines content) (defaultHeading fileName)]
    simp [parseChecklists]
  · rfl

/-! ## Heading tracking (claim C8) -/

theorem matchHeading13_eq_spec (line : List Char) :
    matchHeading13 line = specHeading13 line := by
  unfold matchHeading13 matchHeadingRange specHeading13 specHeadingLevel
  cases line with
  | nil => rfl
  | cons c1 r1 =>
    by_cases h1 : c1 = '#'
    · subst h1
      cases r1 with
      | nil => simp [List.takeWhile_cons]
      | cons c2 r2 =>
        by_cases h2 : c2 = '#'
        · subst h2
          cases r2 with
          | nil => simp [List.takeWhile_cons]
          | cons c3 r3 =>
            by_cases h3 : c3 = '#'
            · subst h3
              cases r3 with
              | nil => simp [List.takeWhile_cons]
              | cons c4 r4 =>
                by_cases h4 : c4 = '#'
                · subst h4
                  simp [List.takeWhile_cons]
                · simp [List.takeWhile_cons, h4, trimBoth_wsStarCapture]
            · simp [List.takeWhile_cons, h3, trimBoth_wsStarCapture]
        · simp [List.takeWhile_cons, h2, trimBoth_wsStarCapture]
    · simp [List.takeWhile_cons, h1]

theorem matchChecklist_hash_none (r : List Char) : matchChecklist ('#' :: r) = none := by
  have hws : jsWs '#' = false := by decide
  simp [matchChecklist, List.dropWhile_cons, hws]

theorem specHeading13_starts_hash (l : List Char) (s : String)
    (h : specHeading13 l = some s) : ∃ r, l = '#' :: r := by
  unfold specHeading13 specHeadingLevel at h
  cases l with
  | nil => simp at h
  | cons c r =>
    by_cases hc : c = '#'
    · exact ⟨r, by rw [hc]⟩
    · simp [hc] at h

theorem parseLinesGo_eq_specTagged (ls : List (List Char)) : ∀ cur : String,
    parseLinesGo cur ls = specTagged cur ls := by
  induction ls with
  | nil => intro cur; rfl
  | cons l ls ih =>
    intro cur
    cases hh : specHeading13 l with
    | some h =>
      obtain ⟨r, rfl⟩ := specHeading13_starts_hash l h hh
      have hcl : matchChecklist ('#' :: r) = none := matchChecklist_hash_none r
      simp [parseLinesGo, specTagged, hh, matchHeading13_eq_spec, hcl, ih]
    | none =>
      have hmc := (matchChecklist_eq_spec l).symm
      cases hs : specChecklistLine l with
      | none =>
        simp [parseLinesGo, specTagged, hh, matchHeading13_eq_spec, hs, ← hmc, ih,
          matchChecklist_eq_spec]
      | some v =>
        simp [parseLinesGo, specTagged, hh, matchHeading13_eq_spec, hs, ih,
          matchChecklist_eq_spec]

theorem matchHeadingRange23_none_of_h1 (l : List Char) (h : isH1 l = true) :
    matchHeadingRange 2 3 l = none := by
  unfold isH1 at h
  cases l with
  | nil => simp at h
  | cons c r =>
    simp only [Bool.and_eq_true, beq_iff_eq] at h
    obtain ⟨rfl, hr⟩ := h
    unfold matchHeadingRange
    cases r with
    | nil => simp [List.takeWhile_cons]
    | cons d r' =>
      have hd : ¬ d = '#' := by
        intro hdd
        subst hdd
        simp at hr
      simp [List.takeWhile_cons, hd]

theorem matchChecklist_none_of_h1 (l : List Char) (h : isH1 l = true) :
    matchChecklist l = none := by
  unfold isH1 at h
  cases l with
  | nil => simp at h
  | cons c r =>
    simp only [Bool.and_eq_true, beq_iff_eq] at h
    rw [h.1]
    exact matchChecklist_hash_none r

theorem tableMatch_none_of_h1 (l : List Char) (h : isH1 l = true) :
    tableMatch l = none := by
  unfold isH1 at h
  cases l with
  | nil => simp at h
  | cons c r =>
    simp only [Bool.and_eq_true, beq_iff_eq] at h
    rw [h.1]
    simp [tableMatch]

theorem parsePRDGo_skip_h1 (f : String) (l : List Char) (h : isH1 l = true)
    (pre post : List (List Char)) : ∀ cur,
    parsePRDGo f (pre ++ l :: post) cur = parsePRDGo f (pre ++ post) cur := by
  induction pre with
  | nil =>
    intro cur
    simp [parsePRDGo, matchHeadingRange23_none_of_h1 l h, matchChecklist_none_of_h1 l h,
      tableMatch_none_of_h1 l h]
  | cons p pre ih =>
    intro cur
    simp only [List.cons_append, parsePRDGo]
    cases hm : matchHeadingRange 2 3 p with
    | some v =>
      cases v with
      | mk lvl hd => simp [ih]
    | none =>
      cases hc : matchChecklist p with
      | some v =>
        cases v with
        | mk d txt =>
          cases cur with
          | none =>
            cases ht : tableMatch p with
            | some w =>
              cases w with
              | mk c1 dn => simp [ih]
            | none => simp [ih]
          | some s => simp [ih]
      | none =>
        cases ht : tableMatch p with
        | some w =>
          cases w with
          | mk c1 dn =>
            cases cur with
            | none => simp [ih]
            | some s =>
              by_cases hok : tableTaskOk (trimBoth c1) = true
              · simp [hok, ih]
              · simp [hok, ih]
        | none => simp [ih]

theorem parsePRDGo_headingless (f : String) (ls : List (List Char))
    (h : ∀ l ∈ ls, matchHeadingRange 2 3 l = none) : parsePRDGo f ls none = [] := by
  induction ls with
  | nil => rfl
  | cons l ls ih =>
    have h1 := h l (List.mem_cons_self l ls)
    have ihh := ih (fun x hx => h x (List.mem_cons_of_mem _ hx))
    simp only [parsePRDGo, h1]
    cases hc : matchChecklist l with
    | some v =>
      cases v with
      | mk d txt =>
        cases ht : tableMatch l with
        | some w =>
          cases w with
          | mk c1 dn => simp [ihh]
        | none => simp [ihh]
    | none =>
      cases ht : tableMatch l with
      | some w =>
        cases w with
        | mk c1 dn => simp [ihh]
      | none => simp [ihh]

/-- C8 (amended): in the `parseChecklists` variants a 1-3-level heading sets
the section context used to tag subsequent checklist lines and a task line
before any heading gets the filename-derived default label; in the `parsePRD`
migration variant, however, level-1 heading lines are ignored wherever they
appear, and when no 2-3-level heading occurs every task line is dropped
rather than tagged with a default. -/
theorem parser_heading_tracking_amended (content fileName : String) :
    parseChecklists content fileName = specTagged (defaultHeading fileName) (splitLines content)
  ∧ (∀ (l : List Char) (pre post : List (List Char)) (cur : Option PSection), isH1 l = true →
      parsePRDGo fileName (pre ++ l :: post) cur = parsePRDGo fileName (pre ++ post) cur)
  ∧ ((∀ l ∈ splitLines content, matchHeadingRange 2 3 l = none) →
      parsePRD content fileName = []) := by
  refine ⟨parseLinesGo_eq_specTagged _ _, ?_, ?_⟩
  · intro l pre post cur h
    exact parsePRDGo_skip_h1 fileName l h pre post cur
  · intro h
    exact parsePRDGo_headingless fileName (splitLines content) h

/-- Witness for C8's amended theorem at concrete inputs. -/
theorem parser_heading_tracking_witness :
    parseChecklists "- [ ] A\n# T\n- [ ] B" "f-x.md"
        = specTagged (defaultHeading "f-x.md") (splitLines "- [ ] A\n# T\n- [ ] B")
  ∧ parsePRDGo "g.md" (("- [ ] A".data) :: ("# T".data) :: [] ) none
        = parsePRDGo "g.md" (("- [ ] A".data) :: []) none
  ∧ parsePRD "- [ ] A\nplain" "g.md" = [] := by
  refine ⟨(parser_heading_tracking_amended "- [ ] A\n# T\n- [ ] B" "f-x.md").1, ?_, ?_⟩
  · exact (parser_heading_tracking_amended "" "g.md").2.1 ("# T".data)
      (("- [ ] A".data) :: []) [] none (by decide)
  · exact (parser_heading_tracking_amended "- [ ] A\nplain" "g.md").2.2 (by decide)

/-- Counterexample to C8 as stated: in the `parsePRD` variant the level-1
heading line does not set the section context and the task line before any
2-3-level heading is dropped instead of being tagged with the
filename-derived default label, even though the same input holds two
well-formed checklist lines for the other parser variant. -/
theorem parsePRD_level1_counterexample :
    parsePRD "# Top\n- [ ] A\n## Sec\n- [ ] B" "f-x.md"
        = [{ heading := "Sec", level := 2, tasks := [{ done := false, text := "B" }],
             source := "f-x.md" }]
  ∧ (parseChecklists "# Top\n- [ ] A\n## Sec\n- [ ] B" "f-x.md").length = 2 := by
  constructor
  · rfl
  · rfl

/-! ## The section merger (claim C4) -/

theorem mergeUpd_keys (key : String) (s : PSection) (acc : List (String × PSection)) :
    (mergeUpd key s acc).map Prod.fst =
      if key ∈ acc.map Prod.fst then acc.map Prod.fst else acc.map Prod.fst ++ [key] := by
  induction acc with
  | nil => simp [mergeUpd]
  | cons e rest ih =>
    cases e with
    | mk k ex =>
      by_cases hk : k = key
      · subst hk
        simp [mergeUpd]
      · have hbeq : (k == key) = false := by simp [hk]
        simp only [mergeUpd, hbeq, Bool.false_eq_true, if_false, List.map_cons, ih]
        by_cases hm : key ∈ rest.map Prod.fst
        · simp [hm, Ne.symm hk]
        · simp [hm, Ne.symm hk]

theorem mergeUpd_keys_mem (k key : String) (s : PSection) (acc : List (String × PSection)) :
    k ∈ (mergeUpd key s acc).map Prod.fst ↔ k ∈ acc.map Prod.fst ∨ k = key := by
  rw [mergeUpd_keys]
  by_cases hm : key ∈ acc.map Prod.fst
  · simp only [hm, if_true]
    constructor
    · exact Or.inl
    · rintro (h | rfl)
      · exact h
      · exact hm
  · simp [hm]

theorem mergeUpd_headings (s : PSection) (acc : List (String × PSection))
    (hacc : ∀ e ∈ acc, slugify e.2.heading = e.1) :
    ∀ e ∈ mergeUpd (slugify s.heading) s acc, slugify e.2.heading = e.1 := by
  induction acc with
  | nil =>
    intro e he
    simp only [mergeUpd, List.mem_singleton] at he
    subst he
    rfl
  | cons a rest ih =>
    cases a with
    | mk k ex =>
      intro e he
      by_cases hk : (k == slugify s.heading) = true
      · simp only [mergeUpd, hk, if_true, List.mem_cons] at he
        rcases he with rfl | he
        · have := hacc (k, ex) (List.mem_cons_self _ _)
          simpa [mergeTasksInto] using this
        · exact hacc e (List.mem_cons_of_mem _ he)
      · simp only [mergeUpd, hk, Bool.false_eq_true, if_false, List.mem_cons] at he
        rcases he with rfl | he
        · exact hacc (k, ex) (List.mem_cons_self _ _)
        · exact ih (fun x hx => hacc x (List.mem_cons_of_mem _ hx)) e he

theorem mergeUpd_nodup (key : String) (s : PSection) (acc : List (String × PSection))
    (h : (acc.map Prod.fst).Nodup) : ((mergeUpd key s acc).map Prod.fst).Nodup := by
  rw [mergeUpd_keys]
  by_cases hm : key ∈ acc.map Prod.fst
  · simpa [hm] using h
  · simp only [hm, if_false]
    exact List.Nodup.append h (List.nodup_singleton key) (by simpa using hm)

theorem mergeFold_invariant (sections : List PSection) : ∀ acc : List (String × PSection),
    (∀ e ∈ acc, slugify e.2.heading = e.1) → (acc.map Prod.fst).Nodup →
    (∀ e ∈ sections.foldl (fun a s => mergeUpd (slugify s.heading) s a) acc,
        slugify e.2.heading = e.1)
  ∧ ((sections.foldl (fun a s => mergeUpd (slugify s.heading) s a) acc).map Prod.fst).Nodup
  ∧ (∀ k, k ∈ (sections.foldl (fun a s => mergeUpd (slugify s.heading) s a) acc).map Prod.fst
        ↔ (k ∈ acc.map Prod.fst ∨ ∃ s ∈ sections, slugify s.heading = k)) := by
  induction sections with
  | nil =>
    intro acc h1 h2
    exact ⟨h1, h2, fun k => by simp⟩
  | cons s rest ih =>
    intro acc h1 h2
    obtain ⟨a1, a2, a3⟩ := ih (mergeUpd (slugify s.heading) s acc)
      (mergeUpd_headings s acc h1) (mergeUpd_nodup _ s acc h2)
    refine ⟨by simpa using a1, by simpa using a2, fun k => ?_⟩
    rw [List.foldl_cons]
    rw [a3 k, mergeUpd_keys_mem]
    constructor
    · rintro ((h | rfl) | ⟨x, hx, hsl⟩)
      · exact Or.inl h
      · exact Or.inr ⟨s, List.mem_cons_self _ _, rfl⟩
      · exact Or.inr ⟨x, List.mem_cons_of_mem _ hx, hsl⟩
    · rintro (h | ⟨x, hx, hsl⟩)
      · exact Or.inl (Or.inl h)
      · rcases List.mem_cons.mp hx with rfl | hx'
        · exact Or.inl (Or.inr hsl.symm)
        · exact Or.inr ⟨x, hx', hsl⟩

/-- C4 (amended): merging produces exactly one section per slug key, but the
task list of the surviving section deduplicates an incoming section's tasks
only against the snapshot of the existing list taken before that section's
merge began: a pair of same-slug sections merges to one section whose tasks
are the first section's tasks followed by those tasks of the second whose
text did not already occur in the first, and whose source comma-joins both
file paths — duplicates inside the incoming section survive. -/
theorem mergeSections_amended (l1 l2 : List PSection) (k : String) (s1 s2 : PSection)
    (hslug : slugify s1.heading = slugify s2.heading) :
    ((mergeSections (l1 ++ l2)).countP (fun s => slugify s.heading == k)
        = if (l1 ++ l2).any (fun s => slugify s.heading == k) then 1 else 0)
  ∧ mergeSections [s1, s2]
      = [{ heading := s1.heading, level := s1.level,
           tasks := s1.tasks ++ s2.tasks.filter (fun t => !(s1.tasks.any (fun e => e.text == t.text))),
           source := s1.source ++ ", " ++ s2.source }] := by
  constructor
  · obtain ⟨a1, a2, a3⟩ := mergeFold_invariant (l1 ++ l2) [] (by simp) (by simp)
    set res := (l1 ++ l2).foldl (fun a s => mergeUpd (slugify s.heading) s a) [] with hres
    have hcong : res.countP (fun e => slugify e.2.heading == k) = res.countP (fun e => e.1 == k) := by
      apply List.countP_congr
      intro e he
      rw [a1 e he]
    have hmap : (mergeSections (l1 ++ l2)).countP (fun s => slugify s.heading == k)
        = res.countP (fun e => slugify e.2.heading == k) := by
      rw [mergeSections, ← hres, List.countP_map]
      rfl
    have hmap2 : res.countP (fun e => e.1 == k) = (res.map Prod.fst).countP (fun x => x == k) := by
      rw [List.countP_map]
      rfl
    rw [hmap, hcong, hmap2]
    by_cases hmem : k ∈ res.map Prod.fst
    · have hone : (res.map Prod.fst).countP (fun x => x == k) = 1 := by
        have := List.count_eq_one_of_mem a2 hmem
        simpa [List.count] using this
      have hany : (l1 ++ l2).any (fun s => slugify s.heading == k) = true := by
        rcases (a3 k).mp hmem with h | ⟨x, hx, hsl⟩
        · simp at h
        · exact List.any_eq_true.mpr ⟨x, hx, by simp [hsl]⟩
      rw [hone, hany, if_pos rfl]
    · have hzero : (res.map Prod.fst).countP (fun x => x == k) = 0 := by
        have := List.count_eq_zero_of_not_mem hmem
        simpa [List.count] using this
      have hany : (l1 ++ l2).any (fun s => slugify s.heading == k) = false := by
        rw [← Bool.not_eq_true, List.any_eq_true]
        rintro ⟨x, hx, hsl⟩
        exact hmem ((a3 k).mpr (Or.inr ⟨x, hx, by simpa using hsl⟩))
      rw [hzero, hany]
      rfl
  · have hbeq : (slugify s1.heading == slugify s2.heading) = true := by simp [hslug]
    simp only [mergeSections, List.foldl_cons, List.foldl_nil, mergeUpd, hbeq, if_true,
      List.map_cons, List.map_nil, mergeTasksInto]

/-- Witness for C4's amended theorem at concrete same-slug sections. -/
theorem mergeSections_amended_witness :
    slugify ce4a.heading = slugify ce4b.heading
  ∧ ((mergeSections ([ce4a] ++ [ce4b])).countP (fun s => slugify s.heading == "my-sect")
      = if ([ce4a] ++ [ce4b]).any (fun s => slugify s.heading == "my-sect") then 1 else 0)
  ∧ mergeSections [ce4a, ce4b]
      = [{ heading := ce4a.heading, level := ce4a.level,
           tasks := ce4a.tasks ++ ce4b.tasks.filter (fun t => !(ce4a.tasks.any (fun e => e.text == t.text))),
           source := ce4a.source ++ ", " ++ ce4b.source }] := by
  refine ⟨by decide, ?_, ?_⟩
  · exact (mergeSections_amended [ce4a] [ce4b] "my-sect" ce4a ce4b (by decide)).1
  · exact (mergeSections_amended [ce4a] [ce4b] "my-sect" ce4a ce4b (by decide)).2

/-- Counterexample to C4 as stated: two documents with same-slug sections
merge into one section whose task list still contains an exact-text
duplicate, because the dedup set is a snapshot taken before the incoming
section's tasks are appended. -/
theorem mergeSections_duplicate_counterexample :
    slugify ce4a.heading = slugify ce4b.heading
  ∧ (mergeSections [ce4a, ce4b]).map (fun s => s.tasks.map (fun t => t.text)) = [["a", "b", "b"]]
  ∧ ¬ (∀ s ∈ mergeSections [ce4a, ce4b], (s.tasks.map (fun t => t.text)).Nodup) := by
  refine ⟨by decide, by decide, ?_⟩
  decide

/-! ## Output ordering of the aggregator (claim C5) -/

/-- C5: the comparator reads `statusOrder[a.status] || 2`, and the rank of
the active status is `0`, which is falsy — so an active project gets
effective rank 2 and sorts after an idle one (rank 1) even when it dominates
on every other claimed key.  This contradicts the comparator's own inline
documentation of the intended order active before idle before paused. -/
theorem sortProjects_statusRank_bug :
    ce5active.status = "active" ∧ ce5idle.status = "idle"
  ∧ ce5active.prdFiles = 3 ∧ ce5idle.prdFiles = 0
  ∧ ce5active.daysSinceUpdate = some 1 ∧ ce5idle.daysSinceUpdate = some 200
  ∧ sortProjects [ce5active, ce5idle] = [ce5idle, ce5active]
  ∧ orFalsy (statusOrder "active") 2 = 2 := by
  refine ⟨rfl, rfl, rfl, rfl, rfl, rfl, by decide, by decide⟩

/-! ## Status derivation (claim C6) -/

/-- Counterexample to C6 as stated: in the configured variant a repository
without a configured status and 40 days since its last push derives
"paused", not the "idle" the claim requires for the 31-90-day band. -/
theorem statusV2_unconfigured_counterexample :
    statusV2 none (some 40) = "paused" ∧ statusV3 (some 40) = "idle"
  ∧ ¬ ((("paused" : String)) = "idle") := by
  exact ⟨rfl, by decide, by decide⟩

/-- C6 (amended): the dynamic-discovery variant derives, for repositories
without configuration, paused beyond 90 days, idle beyond 30 and active
otherwise; the configured variant keeps a configured live or paused status
unconditionally, and demotes an active status — configured, defaulted for a
missing one, or defaulted for an empty one — to paused beyond 30 days. -/
theorem status_derivation_amended (cs : Option String) (dsu : Option Int) (d : Int) :
    statusV3 none = "active"
  ∧ statusV3 (some d) = (if d > 90 then "paused" else if d > 30 then "idle" else "active")
  ∧ (cs = some "live" → statusV2 cs dsu = "live")
  ∧ (cs = some "paused" → statusV2 cs dsu = "paused")
  ∧ statusV2 none (some d) = (if d > 30 then "paused" else "active")
  ∧ statusV2 (some "active") (some d) = (if d > 30 then "paused" else "active")
  ∧ statusV2 cs none = (match cs with
      | none => "active"
      | some s => if s = "" then "active" else s) := by
  refine ⟨rfl, rfl, ?_, ?_, ?_, ?_, ?_⟩
  · rintro rfl
    have hne : ¬ (("live" : String) = "active") := by decide
    cases dsu with
    | none => rfl
    | some x => simp [statusV2, hne]
  · rintro rfl
    have hne : ¬ (("paused" : String) = "active") := by decide
    cases dsu with
    | none => rfl
    | some x => simp [statusV2, hne]
  · simp [statusV2]
  · simp [statusV2]
  · cases cs with
    | none => rfl
    | some s => rfl

/-- Witness for C6's amended theorem at concrete inputs. -/
theorem status_derivation_witness :
    statusV2 (some "live") (some 200) = "live"
  ∧ statusV2 none (some 40) = (if (40 : Int) > 30 then "paused" else "active") := by
  exact ⟨(status_derivation_amended (some "live") (some 200) 40).2.2.1 rfl,
    (status_derivation_amended (some "live") (some 200) 40).2.2.2.2.1⟩

/-! ## Determinism of the aggregator (claim C7) -/

theorem buildAll_congr (repos : List RepoInput) (now1 now2 : Int)
    (h : ∀ r ∈ repos, daysSince now1 r.pushedAt = daysSince now2 r.pushedAt) :
    ∀ idx, buildAll now1 idx repos = buildAll now2 idx repos := by
  induction repos with
  | nil => intro idx; rfl
  | cons r rest ih =>
    intro idx
    have h1 := h r (List.mem_cons_self r rest)
    simp [buildAll, buildProjectV3, h1, ih (fun x hx => h x (List.mem_cons_of_mem _ hx))]

/-- C7 (amended): two runs of the aggregator against unchanged repository
inputs produce Documents identical except for the `lastUpdated` stamp,
provided both runs compute the same days-since-push for every repository —
the clock enters the build only through that floor-division, so runs
straddling a day boundary may legitimately differ in `daysSinceUpdate`,
status and ordering. -/
theorem handler_deterministic_amended (repos : List RepoInput) (now1 now2 : Int)
    (iso1 iso2 : String)
    (h : ∀ r ∈ repos, daysSince now1 r.pushedAt = daysSince now2 r.pushedAt) :
    (handlerV3 now1 iso1 repos).projects = (handlerV3 now2 iso2 repos).projects
  ∧ (handlerV3 now1 iso1 repos).meta.lastScanType = (handlerV3 now2 iso2 repos).meta.lastScanType
  ∧ (handlerV3 now1 iso1 repos).meta.version = (handlerV3 now2 iso2 repos).meta.version
  ∧ (handlerV3 now1 iso1 repos).meta.projectCount = (handlerV3 now2 iso2 repos).meta.projectCount
  ∧ (handlerV3 now1 iso1 repos).meta.sources = (handlerV3 now2 iso2 repos).meta.sources := by
  have key := buildAll_congr repos now1 now2 h 0
  refine ⟨by simp [handlerV3, key], rfl, rfl, by simp [handlerV3, key], rfl⟩

/-- Witness for C7's amended theorem at a concrete repository input. -/
theorem handler_deterministic_witness :
    (∀ r ∈ [witRepo], daysSince 5 r.pushedAt = daysSince 99 r.pushedAt)
  ∧ (handlerV3 5 "a" [witRepo]).projects = (handlerV3 99 "b" [witRepo]).projects := by
  exact ⟨by decide, (handler_deterministic_amended [witRepo] 5 99 "a" "b" (by decide)).1⟩

/-- Counterexample to C7 as stated: with repository inputs unchanged, runs at
30 and 31 days after the last push produce different project records (the
status flips from active to idle), so the Documents differ beyond
`lastUpdated`. -/
theorem handler_time_dependent_counterexample :
    (handlerV3 2592000000 "t1" [ce7repo]).projects ≠ (handlerV3 2678400000 "t2" [ce7repo]).projects
  ∧ (handlerV3 2592000000 "t1" [ce7repo]).projects.map (fun p => p.status) = ["active"]
  ∧ (handlerV3 2678400000 "t2" [ce7repo]).projects.map (fun p => p.status) = ["idle"] := by
  exact ⟨by decide, by decide, by decide⟩

/-! ## Not-found and CLI error paths (claim C9) -/

theorem findTasks_eq_none_of (id : String) (L : List Task)
    (h : id ∉ L.flatMap taskIds) : findTasks id L = none := by
  induction L with
  | nil => rfl
  | cons t rest ih =>
    simp only [List.flatMap_cons, List.mem_append, not_or] at h
    obtain ⟨h1, h2⟩ := h
    have ht1 : ¬ t.id = id := by
      intro he
      exact h1 (by simp [taskIds, he])
    have ht2 : (t.subtasks.any fun s => decide (s.id = id)) = false := by
      rw [← Bool.not_eq_true, List.any_eq_true]
      rintro ⟨s, hs, hid⟩
      simp only [decide_eq_true_eq] at hid
      exact h1 (by simp [taskIds]; exact Or.inr ⟨s, hs, hid⟩)
    simp [findTasks, ht1, ht2, ih h2]

theorem findMs_eq_none_of (id : String) (ms : List Milestone)
    (h : id ∉ ms.flatMap msIds) : findMs id ms = none := by
  induction ms with
  | nil => rfl
  | cons m rest ih =>
    simp only [List.flatMap_cons, List.mem_append, not_or] at h
    obtain ⟨h1, h2⟩ := h
    have hm1 : ¬ m.id = id := by
      intro he
      exact h1 (by simp [msIds, he])
    have hm2 : findTasks id m.tasks = none := by
      apply findTasks_eq_none_of
      intro hmem
      exact h1 (List.mem_cons_of_mem m.id hmem)
    simp [findMs, hm1, hm2, ih h2]

theorem findPs_eq_none_of (id : String) (ps : List Project)
    (h : id ∉ docIds ps) : findPs id ps = none := by
  induction ps with
  | nil => rfl
  | cons p rest ih =>
    simp only [docIds, List.flatMap_cons, List.mem_append, not_or] at h
    obtain ⟨h1, h2⟩ := h
    have hp : findMs id p.milestones = none := findMs_eq_none_of id p.milestones h1
    simp [findPs, hp]
    exact ih h2

theorem markDoneSubs_eq_none_of (now id : String) (l : List Subtask)
    (h : ∀ s ∈ l, ¬ s.id = id) : markDoneSubs now id l = none := by
  induction l with
  | nil => rfl
  | cons s rest ih =>
    simp [markDoneSubs, h s (List.mem_cons_self s rest),
      ih (fun x hx => h x (List.mem_cons_of_mem _ hx))]

theorem markDoneTasks_eq_none_of (now id : String) (L : List Task)
    (h : id ∉ L.flatMap taskIds) : markDoneTasks now id L = none := by
  induction L with
  | nil => rfl
  | cons t rest ih =>
    simp only [List.flatMap_cons, List.mem_append, not_or] at h
    obtain ⟨h1, h2⟩ := h
    have ht1 : ¬ t.id = id := by
      intro he
      exact h1 (by simp [taskIds, he])
    have ht2 : markDoneSubs now id t.subtasks = none := by
      apply markDoneSubs_eq_none_of
      intro s hs he
      exact h1 (by simp [taskIds]; exact Or.inr ⟨s, hs, he⟩)
    simp [markDoneTasks, ht1, ht2, ih h2]

theorem markDoneMs_eq_none_of (now id : String) (ms : List Milestone)
    (h : id ∉ ms.flatMap msIds) : markDoneMs now id ms = none := by
  induction ms with
  | nil => rfl
  | cons m rest ih =>
    simp only [List.flatMap_cons, List.mem_append, not_or] at h
    obtain ⟨h1, h2⟩ := h
    have hm1 : ¬ m.id = id := by
      intro he
      exact h1 (by simp [msIds, he])
    have hm2 : markDoneTasks now id m.tasks = none := by
      apply markDoneTasks_eq_none_of
      intro hmem
      exact h1 (List.mem_cons_of_mem m.id hmem)
    simp [markDoneMs, hm1, hm2, ih h2]

theorem markDonePs_eq_none_of (now id : String) (ps : List Project)
    (h : id ∉ docIds ps) : markDonePs now id ps = none := by
  induction ps with
  | nil => rfl
  | cons p rest ih =>
    simp only [docIds, List.flatMap_cons, List.mem_append, not_or] at h
    obtain ⟨h1, h2⟩ := h
    simp [markDonePs, markDoneMs_eq_none_of now id p.milestones h1]
    exact ih h2

/-- C9: when the id occurs nowhere among the document's milestone, task and
subtask ids, both commands take the not-found path — modelled as `none`, the
process exit without any write, leaving the store untouched — and the CLI
dispatch exits non-zero likewise for a missing id argument and for a missing
or unreadable data store, in each case before any write.  (The id is assumed
not to collide with the tool's own flag strings.) -/
theorem cmd_notFound_noWrite (now id : String) (d : Document)
    (hid : id ≠ "--help" ∧ id ≠ "-h" ∧ id ≠ "--status")
    (h : id ∉ docIds d.projects) :
    cmdMarkDone now id d = none
  ∧ cmdSetCurrent now id d = none
  ∧ runCli now ["--mark-done", id] (some d) = CliOutcome.exitErr
  ∧ runCli now ["--set-current", id] (some d) = CliOutcome.exitErr
  ∧ runCli now ["--mark-done"] (some d) = CliOutcome.exitErr
  ∧ runCli now ["--set-current"] (some d) = CliOutcome.exitErr
  ∧ runCli now ["--mark-done", id] none = CliOutcome.exitErr
  ∧ runCli now ["--set-current", id] none = CliOutcome.exitErr := by
  obtain ⟨hh1, hh2, hh3⟩ := hid
  have hmd : cmdMarkDone now id d = none := by
    simp [cmdMarkDone, markDonePs_eq_none_of now id d.projects h]
  have hsc : cmdSetCurrent now id d = none := by
    simp [cmdSetCurrent, findPs_eq_none_of id d.projects h]
  have e1 : (id == "--help") = false := beq_eq_false_iff_ne.mpr hh1
  have e2 : (id == "-h") = false := beq_eq_false_iff_ne.mpr hh2
  have e3 : (id == "--status") = false := beq_eq_false_iff_ne.mpr hh3
  have f1 : ¬ ("--help" = id) := Ne.symm hh1
  have f2 : ¬ ("-h" = id) := Ne.symm hh2
  have f3 : ¬ ("--status" = id) := Ne.symm hh3
  refine ⟨hmd, hsc, ?_, ?_, ?_, ?_, ?_, ?_⟩
  · by_cases h0 : id = ""
    · simp [runCli, argAfter, e1, e2, e3, f1, f2, f3, h0]
    · simp [runCli, argAfter, e1, e2, e3, f1, f2, f3, h0, hmd]
  · by_cases hmd2 : id = "--mark-done"
    · simp [runCli, argAfter, e1, e2, e3, f1, f2, f3, hmd2]
    · have e4 : (id == "--mark-done") = false := beq_eq_false_iff_ne.mpr hmd2
      by_cases h0 : id = ""
      · simp [runCli, argAfter, e1, e2, e3, e4, f1, f2, f3, Ne.symm hmd2, h0]
      · simp [runCli, argAfter, e1, e2, e3, e4, f1, f2, f3, Ne.symm hmd2, h0, hsc]
  · simp [runCli, argAfter]
  · simp [runCli, argAfter]
  · by_cases h0 : id = ""
    · simp [runCli, argAfter, e1, e2, e3, f1, f2, f3, h0]
    · simp [runCli, argAfter, e1, e2, e3, f1, f2, f3, h0]
  · by_cases hmd2 : id = "--mark-done"
    · simp [runCli, argAfter, e1, e2, e3, f1, f2, f3, hmd2]
    · have e4 : (id == "--mark-done") = false := beq_eq_false_iff_ne.mpr hmd2
      by_cases h0 : id = ""
      · simp [runCli, argAfter, e1, e2, e3, e4, f1, f2, f3, Ne.symm hmd2, h0]
      · simp [runCli, argAfter, e1, e2, e3, e4, f1, f2, f3, Ne.symm hmd2, h0]

/-- Witness for C9 at a concrete document and absent id. -/
theorem cmd_notFound_noWrite_witness :
    ("zz" ∉ docIds wit9doc.projects)
  ∧ cmdMarkDone "TS" "zz" wit9doc = none
  ∧ cmdSetCurrent "TS" "zz" wit9doc = none
  ∧ runCli "TS" ["--mark-done", "zz"] (some wit9doc) = CliOutcome.exitErr
  ∧ runCli "TS" ["--mark-done"] (some wit9doc) = CliOutcome.exitErr
  ∧ runCli "TS" ["--mark-done", "zz"] none = CliOutcome.exitErr := by
  have main := cmd_notFound_noWrite "TS" "zz" wit9doc ⟨by decide, by decide, by decide⟩ (by decide)
  exact ⟨by decide, main.1, main.2.1, main.2.2.1, main.2.2.2.2.1, main.2.2.2.2.2.2.1⟩

/-! ## Mark-done on a subtask: decomposition lemmas (claims C2 and C10) -/

theorem map_eraseSub_advance (l : List Subtask) :
    (advance l).map eraseSub = l.map eraseSub := by
  cases l with
  | nil => rfl
  | cons n r => rfl

theorem nextSiblingId_none_of_not_exists (id : String) (l : List Subtask)
    (h : nextSiblingExists id l = false) : nextSiblingId id l = none := by
  induction l with
  | nil => rfl
  | cons s rest ih =>
    by_cases hs : s.id = id
    · simp [nextSiblingExists, hs] at h
      simp [nextSiblingId, hs, List.head?_eq_none_iff.mpr h]
    · simp only [nextSiblingExists, if_neg hs] at h
      simp [nextSiblingId, hs, ih h]

theorem markDoneSubs_decomp (now id : String) (l : List Subtask)
    (h : (l.any fun s => decide (s.id = id)) = true) :
    ∃ pre s rest, l = pre ++ s :: rest ∧ s.id = id ∧ (∀ x ∈ pre, ¬ x.id = id) ∧
      markDoneSubs now id l = some (pre ++ markSub now s :: advance rest) ∧
      nextSiblingExists id l = !rest.isEmpty ∧
      nextSiblingId id l = rest.head?.map (fun n => n.id) := by
  induction l with
  | nil => simp at h
  | cons a l ih =>
    by_cases ha : a.id = id
    · refine ⟨[], a, l, by simp, ha, by simp, ?_, ?_, ?_⟩
      · simp [markDoneSubs, ha]
      · simp [nextSiblingExists, ha]
      · simp [nextSiblingId, ha]
    · have h' : (l.any fun s => decide (s.id = id)) = true := by
        simpa [ha] using h
      obtain ⟨pre, s, rest, hl, hs, hpre, hmark, hnse, hnsi⟩ := ih h'
      refine ⟨a :: pre, s, rest, by simp [hl], hs, ?_, ?_, ?_, ?_⟩
      · intro x hx
        rcases List.mem_cons.mp hx with rfl | hx'
        · exact ha
        · exact hpre x hx'
      · simp [markDoneSubs, ha, hmark]
      · simp [nextSiblingExists, ha, hnse]
      · simp [nextSiblingId, ha, hnsi]

theorem eraseSub_markSub (now : String) (s : Subtask) :
    eraseSub (markSub now s) = eraseSub s := rfl

theorem subsOfTasks_cons (t : Task) (R : List Task) :
    subsOfTasks (t :: R) = t.subtasks ++ subsOfTasks R := by
  simp [subsOfTasks]

theorem subsOfMs_cons (m : Milestone) (R : List Milestone) :
    subsOfMs (m :: R) = subsOfTasks m.tasks ++ subsOfMs R := by
  simp [subsOfMs, subsOfTasks]

theorem findTasks_none_no_sub (id : String) (L : List Task)
    (h : findTasks id L = none) : ∀ x ∈ subsOfTasks L, ¬ x.id = id := by
  induction L with
  | nil => simp [subsOfTasks]
  | cons t R ih =>
    by_cases ht : t.id = id
    · simp [findTasks, ht] at h
    · by_cases hany : (t.subtasks.any fun s => decide (s.id = id)) = true
      · simp [findTasks, ht, hany] at h
      · have hanyP : ∀ x ∈ t.subtasks, ¬ x.id = id := by
          intro x hx he
          exact hany (List.any_eq_true.mpr ⟨x, hx, by simp [he]⟩)
        simp only [findTasks, if_neg ht, hany, Bool.false_eq_true, if_false] at h
        intro x hx
        rw [subsOfTasks_cons] at hx
        rcases List.mem_append.mp hx with hx1 | hx2
        · exact hanyP x hx1
        · exact ih h x hx2

theorem findMs_none_no_sub (id : String) (ms : List Milestone)
    (h : findMs id ms = none) : ∀ x ∈ subsOfMs ms, ¬ x.id = id := by
  induction ms with
  | nil => simp [subsOfMs, subsOfTasks]
  | cons m R ih =>
    by_cases hm : m.id = id
    · simp [findMs, hm] at h
    · cases hft : findTasks id m.tasks with
      | some r => simp [findMs, hm, hft] at h
      | none =>
        simp only [findMs, if_neg hm, hft] at h
        intro x hx
        rw [subsOfMs_cons] at hx
        rcases List.mem_append.mp hx with hx1 | hx2
        · exact findTasks_none_no_sub id m.tasks hft x hx1
        · exact ih h x hx2

theorem markDoneTasks_decomp (now id : String) (L : List Task) (sibs : List Subtask)
    (hfind : findTasks id L = some { kind := .subtask, sibs := sibs }) :
    ∃ L', markDoneTasks now id L = some L' ∧
      L'.map eraseSubsTask = L.map eraseSubsTask ∧
      ∃ pre s rest, subsOfTasks L = pre ++ s :: rest ∧ s.id = id ∧ (∀ x ∈ pre, ¬ x.id = id) ∧
        subsOfTasks L' = pre ++ markSub now s ::
          (if nextSiblingExists id sibs then advance rest else rest) ∧
        (nextSiblingExists id sibs = true →
          rest ≠ [] ∧ nextSiblingId id sibs = rest.head?.map (fun n => n.id)) := by
  induction L with
  | nil => simp [findTasks] at hfind
  | cons t R ih =>
    by_cases ht : t.id = id
    · simp [findTasks, ht] at hfind
    · by_cases hany : (t.subtasks.any fun s => decide (s.id = id)) = true
      · have hsibs : t.subtasks = sibs := by
          simp only [findTasks, if_neg ht, hany, if_true] at hfind
          exact congrArg FindRes.sibs (Option.some.inj hfind)
        obtain ⟨spre, s, srest, hsubs, hs, hspre, hmark, hnse, hnsi⟩ :=
          markDoneSubs_decomp now id t.subtasks hany
        refine ⟨{ t with subtasks := spre ++ markSub now s :: advance srest } :: R,
          ?_, ?_, spre, s, srest ++ subsOfTasks R, ?_, hs, hspre, ?_, ?_⟩
        · simp [markDoneTasks, ht, hmark]
        · have herase_head :
              eraseSubsTask { t with subtasks := spre ++ markSub now s :: advance srest }
                = eraseSubsTask t := by
            simp [eraseSubsTask, hsubs, List.map_append, map_eraseSub_advance,
              eraseSub_markSub]
          simp [herase_head]
        · rw [subsOfTasks_cons, hsubs]
          simp [List.append_assoc]
        · rw [subsOfTasks_cons]
          rw [← hsibs, hnse]
          cases srest with
          | nil => simp [advance]
          | cons n tl => simp [advance, List.append_assoc]
        · rw [← hsibs, hnse]
          intro htrue
          cases srest with
          | nil => simp at htrue
          | cons n tl =>
            constructor
            · simp
            · rw [hnsi]
              simp
      · have hanyP : ∀ x ∈ t.subtasks, ¬ x.id = id := by
          intro x hx he
          exact hany (List.any_eq_true.mpr ⟨x, hx, by simp [he]⟩)
        have hfind' : findTasks id R = some { kind := .subtask, sibs := sibs } := by
          simpa [findTasks, ht, hany] using hfind
        obtain ⟨L', hmk, herase, pre, s, rest, hdec, hs, hpre, hdec', himp⟩ := ih hfind'
        have hsubnone : markDoneSubs now id t.subtasks = none :=
          markDoneSubs_eq_none_of now id t.subtasks hanyP
        refine ⟨t :: L', ?_, ?_, t.subtasks ++ pre, s, rest, ?_, hs, ?_, ?_, himp⟩
        · simp [markDoneTasks, ht, hsubnone, hmk]
        · simp [herase]
        · rw [subsOfTasks_cons, hdec]
          simp [List.append_assoc]
        · intro x hx
          rcases List.mem_append.mp hx with hx1 | hx2
          · exact hanyP x hx1
          · exact hpre x hx2
        · rw [subsOfTasks_cons, hdec']
          simp [List.append_assoc]

theorem option_eq_none_of_isSome_false {α : Type} (o : Option α) (h : o.isSome = false) :
    o = none := by
  cases o with
  | none => rfl
  | some v => simp at h

theorem markDoneSubs_isSome (now id : String) (l : List Subtask) :
    (markDoneSubs now id l).isSome = (l.any fun s => decide (s.id = id)) := by
  induction l with
  | nil => rfl
  | cons s rest ih =>
    by_cases h : s.id = id
    · simp [markDoneSubs, h]
    · simp [markDoneSubs, h, ih]

theorem markDoneTasks_isSome (now id : String) (L : List Task) :
    (markDoneTasks now id L).isSome = (findTasks id L).isSome := by
  induction L with
  | nil => rfl
  | cons t R ih =>
    by_cases ht : t.id = id
    · simp [markDoneTasks, findTasks, ht]
    · by_cases hany : (t.subtasks.any fun s => decide (s.id = id)) = true
      · have hsome : (markDoneSubs now id t.subtasks).isSome = true := by
          rw [markDoneSubs_isSome]
          exact hany
        obtain ⟨subs, hsubs⟩ := Option.isSome_iff_exists.mp hsome
        simp [markDoneTasks, findTasks, ht, hany, hsubs]
      · have hnone : markDoneSubs now id t.subtasks = none := by
          apply option_eq_none_of_isSome_false
          rw [markDoneSubs_isSome]
          simpa using hany
        simp [markDoneTasks, findTasks, ht, hany, hnone, ih]

theorem markDoneMs_isSome (now id : String) (ms : List Milestone) :
    (markDoneMs now id ms).isSome = (findMs id ms).isSome := by
  induction ms with
  | nil => rfl
  | cons m R ih =>
    by_cases hm : m.id = id
    · simp [markDoneMs, findMs, hm]
    · cases hft : findTasks id m.tasks with
      | some r =>
        have hsome : (markDoneTasks now id m.tasks).isSome = true := by
          rw [markDoneTasks_isSome, hft]
          rfl
        obtain ⟨ts, hts⟩ := Option.isSome_iff_exists.mp hsome
        simp [markDoneMs, findMs, hm, hft, hts]
      | none =>
        have hnone : markDoneTasks now id m.tasks = none := by
          apply option_eq_none_of_isSome_false
          rw [markDoneTasks_isSome, hft]
          rfl
        simp [markDoneMs, findMs, hm, hft, hnone, ih]

theorem allSubs_cons (p : Project) (R : List Project) :
    allSubs (p :: R) = subsOfMs p.milestones ++ allSubs R := by
  simp [allSubs, subsOfMs, subsOfTasks]

theorem markDoneMs_decomp (now id : String) (ms : List Milestone) (sibs : List Subtask)
    (hfind : findMs id ms = some { kind := .subtask, sibs := sibs }) :
    ∃ ms', markDoneMs now id ms = some ms' ∧
      ms'.map eraseSubsMs = ms.map eraseSubsMs ∧
      ∃ pre s rest, subsOfMs ms = pre ++ s :: rest ∧ s.id = id ∧ (∀ x ∈ pre, ¬ x.id = id) ∧
        subsOfMs ms' = pre ++ markSub now s ::
          (if nextSiblingExists id sibs then advance rest else rest) ∧
        (nextSiblingExists id sibs = true →
          rest ≠ [] ∧ nextSiblingId id sibs = rest.head?.map (fun n => n.id)) := by
  induction ms with
  | nil => simp [findMs] at hfind
  | cons m R ih =>
    by_cases hm : m.id = id
    · simp [findMs, hm] at hfind
    · cases hft : findTasks id m.tasks with
      | some r =>
        have hr : r = { kind := .subtask, sibs := sibs } := by
          simpa [findMs, hm, hft] using hfind
        subst hr
        obtain ⟨ts', hmk, herase, pre, s, rest, hdec, hs, hpre, hdec', himp⟩ :=
          markDoneTasks_decomp now id m.tasks sibs hft
        refine ⟨{ m with tasks := ts' } :: R, ?_, ?_, pre, s, rest ++ subsOfMs R,
          ?_, hs, hpre, ?_, ?_⟩
        · simp [markDoneMs, hm, hmk]
        · have hh : eraseSubsMs { m with tasks := ts' } = eraseSubsMs m := by
            simp only [eraseSubsMs]
            rw [show ts'.map eraseSubsTask = m.tasks.map eraseSubsTask from herase]
          simp [hh]
        · rw [subsOfMs_cons, hdec]
          simp [List.append_assoc]
        · rw [subsOfMs_cons]
          rw [show ({ m with tasks := ts' } : Milestone).tasks = ts' from rfl, hdec']
          by_cases hb : nextSiblingExists id sibs = true
          · obtain ⟨hne, _⟩ := himp hb
            rw [hb]
            cases rest with
            | nil => exact absurd rfl hne
            | cons n tl => simp [advance, List.append_assoc]
          · have hb' : nextSiblingExists id sibs = false := by
              simpa using hb
            simp [hb', List.append_assoc]
        · intro hb
          obtain ⟨hne, hid⟩ := himp hb
          cases rest with
          | nil => exact absurd rfl hne
          | cons n tl =>
            refine ⟨by simp, ?_⟩
            rw [hid]
            simp
      | none =>
        have hfind' : findMs id R = some { kind := .subtask, sibs := sibs } := by
          simpa [findMs, hm, hft] using hfind
        obtain ⟨R', hmk, herase, pre, s, rest, hdec, hs, hpre, hdec', himp⟩ := ih hfind'
        have hmtnone : markDoneTasks now id m.tasks = none := by
          apply option_eq_none_of_isSome_false
          rw [markDoneTasks_isSome, hft]
          rfl
        refine ⟨m :: R', ?_, ?_, subsOfTasks m.tasks ++ pre, s, rest, ?_, hs, ?_, ?_, himp⟩
        · simp [markDoneMs, hm, hmtnone, hmk]
        · simp [herase]
        · rw [subsOfMs_cons, hdec]
          simp [List.append_assoc]
        · intro x hx
          rcases List.mem_append.mp hx with hx1 | hx2
          · exact findTasks_none_no_sub id m.tasks hft x hx1
          · exact hpre x hx2
        · rw [subsOfMs_cons, hdec']
          simp [List.append_assoc]

theorem markDonePs_decomp (now id : String) (ps : List Project) (sibs : List Subtask)
    (hfind : findPs id ps = some { kind := .subtask, sibs := sibs }) :
    ∃ ps', markDonePs now id ps = some ps' ∧
      ps'.map eraseSubsProject = ps.map eraseSubsProject ∧
      ∃ pre s rest, allSubs ps = pre ++ s :: rest ∧ s.id = id ∧ (∀ x ∈ pre, ¬ x.id = id) ∧
        allSubs ps' = pre ++ markSub now s ::
          (if nextSiblingExists id sibs then advance rest else rest) ∧
        (nextSiblingExists id sibs = true →
          rest ≠ [] ∧ nextSiblingId id sibs = rest.head?.map (fun n => n.id)) := by
  induction ps with
  | nil => simp [findPs] at hfind
  | cons p R ih =>
    cases hfm : findMs id p.milestones with
    | some r =>
      have hr : r = { kind := .subtask, sibs := sibs } := by
        simpa [findPs, hfm] using hfind
      subst hr
      obtain ⟨ms', hmk, herase, pre, s, rest, hdec, hs, hpre, hdec', himp⟩ :=
        markDoneMs_decomp now id p.milestones sibs hfm
      refine ⟨{ p with milestones := ms' } :: R, ?_, ?_, pre, s, rest ++ allSubs R,
        ?_, hs, hpre, ?_, ?_⟩
      · simp [markDonePs, hmk]
      · have hh : eraseSubsProject { p with milestones := ms' } = eraseSubsProject p := by
          simp only [eraseSubsProject]
          rw [show ms'.map eraseSubsMs = p.milestones.map eraseSubsMs from herase]
        simp [hh]
      · rw [allSubs_cons, hdec]
        simp [List.append_assoc]
      · rw [allSubs_cons]
        rw [show ({ p with milestones := ms' } : Project).milestones = ms' from rfl, hdec']
        by_cases hb : nextSiblingExists id sibs = true
        · obtain ⟨hne, _⟩ := himp hb
          rw [hb]
          cases rest with
          | nil => exact absurd rfl hne
          | cons n tl => simp [advance, List.append_assoc]
        · have hb' : nextSiblingExists id sibs = false := by
            simpa using hb
          simp [hb', List.append_assoc]
      · intro hb
        obtain ⟨hne, hid⟩ := himp hb
        cases rest with
        | nil => exact absurd rfl hne
        | cons n tl =>
          refine ⟨by simp, ?_⟩
          rw [hid]
          simp
    | none =>
      have hfind' : findPs id R = some { kind := .subtask, sibs := sibs } := by
        simpa [findPs, hfm] using hfind
      obtain ⟨R', hmk, herase, pre, s, rest, hdec, hs, hpre, hdec', himp⟩ := ih hfind'
      have hmsnone : markDoneMs now id p.milestones = none := by
        apply option_eq_none_of_isSome_false
        rw [markDoneMs_isSome, hfm]
        rfl
      refine ⟨p :: R', ?_, ?_, subsOfMs p.milestones ++ pre, s, rest, ?_, hs, ?_, ?_, himp⟩
      · simp [markDonePs, hmsnone, hmk]
      · simp [herase]
      · rw [allSubs_cons, hdec]
        simp [List.append_assoc]
      · intro x hx
        rcases List.mem_append.mp hx with hx1 | hx2
        · exact findMs_none_no_sub id p.milestones hfm x hx1
        · exact hpre x hx2
      · rw [allSubs_cons, hdec']
        simp [List.append_assoc]

theorem cmdMarkDone_subtask_master (now id : String) (d : Document) (sibs : List Subtask)
    (hfind : findPs id d.projects = some { kind := .subtask, sibs := sibs }) :
    ∃ d', cmdMarkDone now id d = some d' ∧
      d'.meta = { d.meta with lastUpdated := now } ∧
      d'.projects.map eraseSubsProject = d.projects.map eraseSubsProject ∧
      ∃ pre s rest, allSubs d.projects = pre ++ s :: rest ∧ s.id = id ∧ (∀ x ∈ pre, ¬ x.id = id) ∧
        allSubs d'.projects = pre ++ markSub now s ::
          (if nextSiblingExists id sibs then advance rest else rest) ∧
        (nextSiblingExists id sibs = true →
          rest ≠ [] ∧ nextSiblingId id sibs = rest.head?.map (fun n => n.id)) := by
  obtain ⟨ps', hmk, herase, pre, s, rest, hdec, hs, hpre, hdec', himp⟩ :=
    markDonePs_decomp now id d.projects sibs hfind
  exact ⟨{ meta := { d.meta with lastUpdated := now }, projects := ps' },
    by simp [cmdMarkDone, hmk], rfl, herase, pre, s, rest, hdec, hs, hpre, hdec', himp⟩

/-- C10: mark-done on a subtask changes only the matched subtask's done,
completedAt and current fields, at most the current flag of the immediately
following sibling subtask, and the document's lastUpdated stamp: erasing
exactly those subtask fields makes the written document equal to the
original, and the flattened subtask sequence changes only at the matched
position (marked) and, when a following sibling exists in its list, the next
position (current set). -/
theorem cmdMarkDone_frame (now id : String) (d : Document) (sibs : List Subtask)
    (hfind : findPs id d.projects = some { kind := .subtask, sibs := sibs }) :
    ∃ d', cmdMarkDone now id d = some d' ∧
      d'.meta = { d.meta with lastUpdated := now } ∧
      d'.projects.map eraseSubsProject = d.projects.map eraseSubsProject ∧
      ∃ pre s rest, allSubs d.projects = pre ++ s :: rest ∧ s.id = id ∧ (∀ x ∈ pre, ¬ x.id = id) ∧
        allSubs d'.projects = pre ++ markSub now s ::
          (if nextSiblingExists id sibs then advance rest else rest) := by
  obtain ⟨d', h1, h2, h3, pre, s, rest, h4, h5, h6, h7, _⟩ :=
    cmdMarkDone_subtask_master now id d sibs hfind
  exact ⟨d', h1, h2, h3, pre, s, rest, h4, h5, h6, h7⟩

/-- Witness for C10 at a concrete document with a two-subtask list. -/
theorem cmdMarkDone_frame_witness :
    findPs "u1" wit10doc.projects = some { kind := NodeKind.subtask, sibs := wit10sibs }
  ∧ ∃ d', cmdMarkDone "TS" "u1" wit10doc = some d' ∧
      d'.meta = { wit10doc.meta with lastUpdated := "TS" } ∧
      d'.projects.map eraseSubsProject = wit10doc.projects.map eraseSubsProject := by
  refine ⟨by decide, ?_⟩
  obtain ⟨d', h1, h2, h3, _⟩ := cmdMarkDone_frame "TS" "u1" wit10doc wit10sibs (by decide)
  exact ⟨d', h1, h2, h3⟩

/-! ## Auto-advance of the current subtask (claim C2) -/

theorem subsOfTasks_ids_sublist (L : List Task) :
    List.Sublist ((subsOfTasks L).map (fun s => s.id)) (L.flatMap taskIds) := by
  induction L with
  | nil => simp [subsOfTasks]
  | cons t R ih =>
    rw [subsOfTasks_cons, List.map_append, List.flatMap_cons]
    refine List.Sublist.append ?_ ih
    exact List.sublist_cons_self t.id (t.subtasks.map (fun s => s.id))

theorem subsOfMs_ids_sublist (ms : List Milestone) :
    List.Sublist ((subsOfMs ms).map (fun s => s.id)) (ms.flatMap msIds) := by
  induction ms with
  | nil => simp [subsOfMs, subsOfTasks]
  | cons m R ih =>
    rw [subsOfMs_cons, List.map_append, List.flatMap_cons]
    refine List.Sublist.append ?_ ih
    refine List.Sublist.trans (subsOfTasks_ids_sublist m.tasks) ?_
    exact List.sublist_cons_self m.id (m.tasks.flatMap taskIds)

theorem allSubs_ids_sublist (ps : List Project) :
    List.Sublist ((allSubs ps).map (fun s => s.id)) (docIds ps) := by
  induction ps with
  | nil => simp [allSubs, docIds]
  | cons p R ih =>
    rw [allSubs_cons, List.map_append]
    rw [show docIds (p :: R) = projIds p ++ docIds R from by simp [docIds]]
    exact List.Sublist.append (subsOfMs_ids_sublist p.milestones) ih

/-- C2 (amended): mark-done on a subtask sets its done flag, stamps the
completion time and clears its own current flag; when the matched subtask has
an immediately following sibling that sibling — done or not — becomes the
unique current subtask of the document, and when the matched subtask is last
in its list no subtask is current, in both cases provided node ids are
unique and no subtask other than (possibly) the matched one was current
beforehand.  Current flags set elsewhere are untouched by the command, so
without that proviso several subtasks can be current afterwards. -/
theorem cmdMarkDone_advance_amended (now id : String) (d : Document) (sibs : List Subtask)
    (hn : (docIds d.projects).Nodup)
    (hfind : findPs id d.projects = some { kind := NodeKind.subtask, sibs := sibs })
    (hcur : ∀ s ∈ allSubs d.projects, s.current = true → s.id = id) :
    ∃ d', cmdMarkDone now id d = some d' ∧
      currentSubIds d'.projects = (nextSiblingId id sibs).toList ∧
      countCurSubtasks d'.projects = (if nextSiblingExists id sibs then 1 else 0) ∧
      ∃ s' ∈ allSubs d'.projects, s'.id = id ∧ s'.done = true ∧
        s'.completedAt = some now ∧ s'.current = false := by
  obtain ⟨d', h1, _, _, pre, s, rest, hdec, hs, hpre, hdec', himp⟩ :=
    cmdMarkDone_subtask_master now id d sibs hfind
  have hnodup : ((allSubs d.projects).map (fun x => x.id)).Nodup :=
    List.Nodup.sublist (allSubs_ids_sublist d.projects) hn
  rw [hdec, List.map_append, List.map_cons] at hnodup
  have hsid : s.id ∉ rest.map (fun x => x.id) :=
    (List.nodup_cons.mp hnodup.of_append_right).1
  have hrestne : ∀ x ∈ rest, ¬ x.id = id := by
    intro x hx he
    exact hsid (List.mem_map.mpr ⟨x, hx, by rw [he, hs]⟩)
  have hprecur : ∀ x ∈ pre, x.current = false := by
    intro x hx
    by_cases hc : x.current = true
    · exact absurd (hcur x (hdec ▸ List.mem_append_left _ hx) hc) (hpre x hx)
    · simpa using hc
  have hrestcur : ∀ x ∈ rest, x.current = false := by
    intro x hx
    by_cases hc : x.current = true
    · exact absurd (hcur x (hdec ▸ List.mem_append_right _ (List.mem_cons_of_mem s hx)) hc)
        (hrestne x hx)
    · simpa using hc
  have hfilpre : pre.filter (fun x => x.current) = [] :=
    filter_eq_nil_of_all_false _ pre hprecur
  have hmarkcur : (markSub now s).current = false := rfl
  refine ⟨d', h1, ?_, ?_, ?_⟩
  · rw [currentSubIds, hdec']
    by_cases hb : nextSiblingExists id sibs = true
    · obtain ⟨hne, hid⟩ := himp hb
      cases rest with
      | nil => exact absurd rfl hne
      | cons n tl =>
        have hfiltl : tl.filter (fun x => x.current) = [] :=
          filter_eq_nil_of_all_false _ tl
            (fun x hx => hrestcur x (List.mem_cons_of_mem n hx))
        rw [hb, if_pos rfl]
        simp only [advance, List.filter_append, hfilpre, List.filter_cons, hmarkcur,
          Bool.false_eq_true, if_false, hfiltl]
        simp [hid]
    · have hb' : nextSiblingExists id sibs = false := by simpa using hb
      have hfilrest : rest.filter (fun x => x.current) = [] :=
        filter_eq_nil_of_all_false _ rest hrestcur
      rw [hb', if_neg (by simp)]
      simp only [List.filter_append, hfilpre, List.filter_cons, hmarkcur,
        Bool.false_eq_true, if_false, hfilrest]
      simp [nextSiblingId_none_of_not_exists id sibs hb']
  · rw [countCurSubtasks, hdec']
    by_cases hb : nextSiblingExists id sibs = true
    · obtain ⟨hne, _⟩ := himp hb
      cases rest with
      | nil => exact absurd rfl hne
      | cons n tl =>
        have hfiltl : tl.filter (fun x => x.current) = [] :=
          filter_eq_nil_of_all_false _ tl
            (fun x hx => hrestcur x (List.mem_cons_of_mem n hx))
        rw [hb, if_pos rfl]
        simp [advance, List.filter_append, hfilpre, List.filter_cons, hmarkcur, hfiltl]
    · have hb' : nextSiblingExists id sibs = false := by simpa using hb
      have hfilrest : rest.filter (fun x => x.current) = [] :=
        filter_eq_nil_of_all_false _ rest hrestcur
      rw [hb', if_neg (by simp)]
      simp [List.filter_append, hfilpre, List.filter_cons, hmarkcur, hfilrest]
  · refine ⟨markSub now s, ?_, by simpa [markSub] using hs, rfl, rfl, rfl⟩
    rw [hdec']
    exact List.mem_append_right _ (List.mem_cons_self _ _)

/-- Witness for C2's amended theorem at a concrete two-subtask document. -/
theorem cmdMarkDone_advance_witness :
    (docIds wit2doc.projects).Nodup
  ∧ findPs "s1" wit2doc.projects = some { kind := NodeKind.subtask, sibs := wit2sibs }
  ∧ (∀ s ∈ allSubs wit2doc.projects, s.current = true → s.id = "s1")
  ∧ ∃ d', cmdMarkDone "TS" "s1" wit2doc = some d' ∧
      currentSubIds d'.projects = (nextSiblingId "s1" wit2sibs).toList := by
  refine ⟨by decide, by decide, by decide, ?_⟩
  obtain ⟨d', h1, h2, _⟩ :=
    cmdMarkDone_advance_amended "TS" "s1" wit2doc wit2sibs (by decide) (by decide) (by decide)
  exact ⟨d', h1, h2⟩

/-- Counterexample to C2 as stated: the matched subtask has a later not-done
sibling, yet after mark-done two subtasks are current — the auto-advanced
immediate sibling and a third sibling whose pre-existing current flag the
command never clears. -/
theorem cmdMarkDone_twoCurrent_counterexample :
    (findPs "a" ce2doc.projects).map (fun r => r.kind) = some NodeKind.subtask
  ∧ nextSiblingExists "a" ce2sibs = true
  ∧ (ce2sibs.drop 1).any (fun s => !s.done) = true
  ∧ (cmdMarkDone "TS" "a" ce2doc).map (fun d => countCurSubtasks d.projects) = some 2 := by
  exact ⟨by decide, by decide, by decide, by decide⟩

/-! ## Set-current and the focus invariant (claim C1) -/

theorem taskIds_clearTask (t : Task) : taskIds (clearTask t) = taskIds t := by
  simp [taskIds, clearTask, clearSub]

theorem msIds_clearMilestone (m : Milestone) : msIds (clearMilestone m) = msIds m := by
  simp [msIds, clearMilestone, List.flatMap_map, Function.comp, taskIds_clearTask]

theorem findTasks_clear (id : String) (L : List Task) :
    findTasks id (L.map clearTask)
      = (findTasks id L).map (fun r => { kind := r.kind, sibs := r.sibs.map clearSub }) := by
  induction L with
  | nil => rfl
  | cons t R ih =>
    by_cases ht : t.id = id
    · simp [findTasks, clearTask, ht]
    · by_cases hany : (t.subtasks.any fun s => decide (s.id = id)) = true
      · have hany' : ((t.subtasks.map clearSub).any fun s => decide (s.id = id)) = true := by
          simpa [List.any_map, clearSub] using hany
        simp [findTasks, clearTask, ht, hany, hany']
      · have hany' : ((t.subtasks.map clearSub).any fun s => decide (s.id = id)) = false := by
          rw [List.any_map]
          simpa [clearSub] using hany
        simp [findTasks, clearTask, ht, hany, hany', ih]

theorem findMs_clear (id : String) (ms : List Milestone) :
    findMs id (ms.map clearMilestone)
      = (findMs id ms).map (fun r => { kind := r.kind, sibs := r.sibs.map clearSub }) := by
  induction ms with
  | nil => rfl
  | cons m R ih =>
    by_cases hm : m.id = id
    · simp [findMs, clearMilestone, hm]
    · cases hft : findTasks id m.tasks with
      | some r =>
        have := findTasks_clear id m.tasks
        rw [hft] at this
        simp [findMs, clearMilestone, hm, hft, this]
      | none =>
        have := findTasks_clear id m.tasks
        rw [hft] at this
        simp [findMs, clearMilestone, hm, hft, this, ih]

theorem findPs_clear (id : String) (ps : List Project) :
    findPs id (clearCurrentFlags ps)
      = (findPs id ps).map (fun r => { kind := r.kind, sibs := r.sibs.map clearSub }) := by
  induction ps with
  | nil => rfl
  | cons p R ih =>
    cases hfm : findMs id p.milestones with
    | some r =>
      have := findMs_clear id p.milestones
      rw [hfm] at this
      simp [findPs, clearCurrentFlags, clearProject, hfm, this]
    | none =>
      have := findMs_clear id p.milestones
      rw [hfm] at this
      simp only [clearCurrentFlags, List.map_cons, findPs, clearProject] at ih ⊢
      rw [this, hfm]
      exact ih

theorem setCurSubs_isSome (id : String) (l : List Subtask) :
    (setCurSubs id l).isSome = (l.any fun s => decide (s.id = id)) := by
  induction l with
  | nil => rfl
  | cons s rest ih =>
    by_cases h : s.id = id
    · simp [setCurSubs, h]
    · simp [setCurSubs, h, ih]

theorem setCurTasks_isSome (id : String) (L : List Task) :
    (setCurTasks id L).isSome = (findTasks id L).isSome := by
  induction L with
  | nil => rfl
  | cons t R ih =>
    by_cases ht : t.id = id
    · simp [setCurTasks, findTasks, ht]
    · by_cases hany : (t.subtasks.any fun s => decide (s.id = id)) = true
      · have hsome : (setCurSubs id t.subtasks).isSome = true := by
          rw [setCurSubs_isSome]
          exact hany
        obtain ⟨subs, hsubs⟩ := Option.isSome_iff_exists.mp hsome
        simp [setCurTasks, findTasks, ht, hany, hsubs]
      · have hnone : setCurSubs id t.subtasks = none := by
          apply option_eq_none_of_isSome_false
          rw [setCurSubs_isSome]
          simpa using hany
        simp [setCurTasks, findTasks, ht, hany, hnone, ih]

theorem setCurMs_isSome (id : String) (ms : List Milestone) :
    (setCurMs id ms).isSome = (findMs id ms).isSome := by
  induction ms with
  | nil => rfl
  | cons m R ih =>
    by_cases hm : m.id = id
    · simp [setCurMs, findMs, hm]
    · cases hft : findTasks id m.tasks with
      | some r =>
        have hsome : (setCurTasks id m.tasks).isSome = true := by
          rw [setCurTasks_isSome, hft]
          rfl
        obtain ⟨ts, hts⟩ := Option.isSome_iff_exists.mp hsome
        simp [setCurMs, findMs, hm, hft, hts]
      | none =>
        have hnone : setCurTasks id m.tasks = none := by
          apply option_eq_none_of_isSome_false
          rw [setCurTasks_isSome, hft]
          rfl
        simp [setCurMs, findMs, hm, hft, hnone, ih]

theorem setCurPs_isSome (id : String) (ps : List Project) :
    (setCurPs id ps).isSome = (findPs id ps).isSome := by
  induction ps with
  | nil => rfl
  | cons p R ih =>
    cases hfm : findMs id p.milestones with
    | some r =>
      have hsome : (setCurMs id p.milestones).isSome = true := by
        rw [setCurMs_isSome, hfm]
        rfl
      obtain ⟨ms, hms⟩ := Option.isSome_iff_exists.mp hsome
      simp [setCurPs, findPs, hfm, hms]
    | none =>
      have hnone : setCurMs id p.milestones = none := by
        apply option_eq_none_of_isSome_false
        rw [setCurMs_isSome, hfm]
        rfl
      simp [setCurPs, findPs, hfm, hnone, ih]

theorem countCurMilestones_cons (p : Project) (R : List Project) :
    countCurMilestones (p :: R)
      = (p.milestones.filter (fun m => m.current)).length + countCurMilestones R := by
  simp [countCurMilestones, List.flatMap_cons, List.filter_append]

theorem countCurTasks_cons (p : Project) (R : List Project) :
    countCurTasks (p :: R)
      = ((p.milestones.flatMap (fun m => m.tasks)).filter (fun t => t.current)).length
        + countCurTasks R := by
  simp [countCurTasks, List.flatMap_cons, List.flatMap_append, List.filter_append]

theorem countCurSubtasks_cons (p : Project) (R : List Project) :
    countCurSubtasks (p :: R)
      = ((subsOfMs p.milestones).filter (fun s => s.current)).length + countCurSubtasks R := by
  rw [countCurSubtasks, allSubs_cons, List.filter_append, List.length_append]
  rfl

theorem clear_milestones_current_false (ps : List Project) :
    ∀ m ∈ (clearCurrentFlags ps).flatMap (fun p => p.milestones), m.current = false := by
  intro m hm
  rw [List.mem_flatMap] at hm
  obtain ⟨p, hp, hmp⟩ := hm
  rw [clearCurrentFlags, List.mem_map] at hp
  obtain ⟨p0, _, rfl⟩ := hp
  rw [clearProject] at hmp
  simp only [List.mem_map] at hmp
  obtain ⟨m0, _, rfl⟩ := hmp
  rfl

theorem clear_tasks_current_false (ps : List Project) :
    ∀ t ∈ ((clearCurrentFlags ps).flatMap (fun p => p.milestones)).flatMap (fun m => m.tasks),
      t.current = false := by
  intro t ht
  rw [List.mem_flatMap] at ht
  obtain ⟨m, hm, htm⟩ := ht
  rw [List.mem_flatMap] at hm
  obtain ⟨p, hp, hmp⟩ := hm
  rw [clearCurrentFlags, List.mem_map] at hp
  obtain ⟨p0, _, rfl⟩ := hp
  rw [clearProject] at hmp
  simp only [List.mem_map] at hmp
  obtain ⟨m0, _, rfl⟩ := hmp
  rw [clearMilestone] at htm
  simp only [List.mem_map] at htm
  obtain ⟨t0, _, rfl⟩ := htm
  rfl

theorem clear_subs_current_false (ps : List Project) :
    ∀ s ∈ allSubs (clearCurrentFlags ps), s.current = false := by
  intro s hs
  rw [allSubs, List.mem_flatMap] at hs
  obtain ⟨t, ht, hst⟩ := hs
  rw [List.mem_flatMap] at ht
  obtain ⟨m, hm, htm⟩ := ht
  rw [List.mem_flatMap] at hm
  obtain ⟨p, hp, hmp⟩ := hm
  rw [clearCurrentFlags, List.mem_map] at hp
  obtain ⟨p0, _, rfl⟩ := hp
  rw [clearProject] at hmp
  simp only [List.mem_map] at hmp
  obtain ⟨m0, _, rfl⟩ := hmp
  rw [clearMilestone] at htm
  simp only [List.mem_map] at htm
  obtain ⟨t0, _, rfl⟩ := htm
  rw [clearTask] at hst
  simp only [List.mem_map] at hst
  obtain ⟨s0, _, rfl⟩ := hst
  rfl

theorem tasksContains_eq_mem (id : String) (L : List Task) :
    (L.any fun t => t.id == id || t.subtasks.any (fun s => s.id == id))
      = decide (id ∈ L.flatMap taskIds) := by
  induction L with
  | nil => simp
  | cons t R ih =>
    rw [List.any_cons, ih, List.flatMap_cons]
    by_cases ht : t.id = id
    · simp [taskIds, ht]
    · by_cases hany : (t.subtasks.any fun s => s.id == id) = true
      · have hid : id ∈ taskIds t := by
          rw [List.any_eq_true] at hany
          obtain ⟨s, hsmem, hsid⟩ := hany
          rw [beq_iff_eq] at hsid
          simp only [taskIds, List.mem_cons, List.mem_map]
          exact Or.inr ⟨s, hsmem, hsid⟩
        simp [hany, List.mem_append, hid]
      · have hany' : (t.subtasks.any fun s => s.id == id) = false := by
          simpa using hany
        have hnot : id ∉ taskIds t := by
          simp only [taskIds, List.mem_cons, List.mem_map, not_or]
          refine ⟨Ne.symm ht, ?_⟩
          rintro ⟨s, hsmem, hsid⟩
          rw [← Bool.not_eq_true] at hany'
          exact hany' (List.any_eq_true.mpr ⟨s, hsmem, by simp [hsid]⟩)
        simp [ht, hany, hnot]

theorem msContains_eq_mem (id : String) (m : Milestone) :
    msContains id m = decide (id ∈ m.tasks.flatMap taskIds) := by
  rw [msContains, tasksContains_eq_mem]

theorem msContains_eq_of_msIds (id : String) (m1 m2 : Milestone)
    (h : msIds m1 = msIds m2) : msContains id m1 = msContains id m2 := by
  rw [msContains_eq_mem, msContains_eq_mem]
  rw [msIds, msIds] at h
  rw [(List.cons.injEq _ _ _ _).mp h |>.2]

theorem anyContains_eq_of_msIds (id : String) (ms1 ms2 : List Milestone)
    (h : ms1.map msIds = ms2.map msIds) :
    ms1.any (msContains id) = ms2.any (msContains id) := by
  induction ms1 generalizing ms2 with
  | nil =>
    cases ms2 with
    | nil => rfl
    | cons m R => simp at h
  | cons m R ih =>
    cases ms2 with
    | nil => simp at h
    | cons m2 R2 =>
      simp only [List.map_cons, List.cons.injEq] at h
      rw [List.any_cons, List.any_cons, msContains_eq_of_msIds id m m2 h.1, ih R2 h.2]

theorem setCurSubs_count (id : String) (l : List Subtask) : ∀ l',
    (∀ x ∈ l, x.current = false) →
    setCurSubs id l = some l' →
    (l'.filter (fun s => s.current)).length = 1 ∧
    l'.map (fun s => s.id) = l.map (fun s => s.id) := by
  induction l with
  | nil => intro l' _ hset; simp [setCurSubs] at hset
  | cons s rest ih =>
    intro l' h hset
    by_cases hs : s.id = id
    · simp only [setCurSubs, if_pos hs] at hset
      obtain rfl := (Option.some.inj hset).symm
      constructor
      · rw [List.filter_cons]
        simp only [show ({ s with current := true } : Subtask).current = true from rfl, if_pos rfl]
        rw [filter_eq_nil_of_all_false _ rest (fun x hx => h x (List.mem_cons_of_mem _ hx))]
        rfl
      · simp
    · simp only [setCurSubs, if_neg hs] at hset
      cases hrec : setCurSubs id rest with
      | none => rw [hrec] at hset; simp at hset
      | some l'' =>
        rw [hrec] at hset
        simp only [Option.map_some'] at hset
        obtain rfl := (Option.some.inj hset).symm
        obtain ⟨c1, c2⟩ := ih l'' (fun x hx => h x (List.mem_cons_of_mem _ hx)) hrec
        constructor
        · rw [List.filter_cons]
          simp [h s (List.mem_cons_self s rest), c1]
        · simp [c2]

theorem setCurTasks_count (id : String) (L : List Task) : ∀ (L' : List Task) (r : FindRes),
    (∀ t ∈ L, t.current = false) →
    (∀ x ∈ subsOfTasks L, x.current = false) →
    setCurTasks id L = some L' →
    findTasks id L = some r →
    (L'.filter (fun t => t.current)).length = (if r.kind = NodeKind.task then 1 else 0) ∧
    ((subsOfTasks L').filter (fun s => s.current)).length
      = (if r.kind = NodeKind.subtask then 1 else 0) ∧
    L'.map taskIds = L.map taskIds := by
  induction L with
  | nil => intro L' r _ _ hset _; simp [setCurTasks] at hset
  | cons t R ih =>
    intro L' r hT hS hset hfind
    have hSt : ∀ x ∈ t.subtasks, x.current = false := by
      intro x hx
      exact hS x (by rw [subsOfTasks_cons]; exact List.mem_append_left _ hx)
    have hSr : ∀ x ∈ subsOfTasks R, x.current = false := by
      intro x hx
      exact hS x (by rw [subsOfTasks_cons]; exact List.mem_append_right _ hx)
    have hTr : ∀ x ∈ R, x.current = false := fun x hx => hT x (List.mem_cons_of_mem _ hx)
    by_cases ht : t.id = id
    · have hr : r = { kind := .task, sibs := [] } := by
        simp only [findTasks, if_pos ht] at hfind
        exact (Option.some.inj hfind).symm
      subst hr
      simp only [setCurTasks, if_pos ht] at hset
      obtain rfl := (Option.some.inj hset).symm
      refine ⟨?_, ?_, by simp [taskIds]⟩
      · rw [List.filter_cons]
        simp only [show ({ t with current := true } : Task).current = true from rfl, if_pos rfl]
        rw [filter_eq_nil_of_all_false _ R hTr]
        rfl
      · rw [subsOfTasks_cons]
        rw [filter_eq_nil_of_all_false _ _ (fun x hx => hS x (by
          rw [subsOfTasks_cons]
          simpa using hx))]
        rfl
    · by_cases hany : (t.subtasks.any fun s => decide (s.id = id)) = true
      · have hr : r = { kind := .subtask, sibs := t.subtasks } := by
          simp only [findTasks, if_neg ht, hany, if_true] at hfind
          exact (Option.some.inj hfind).symm
        subst hr
        have hsome : (setCurSubs id t.subtasks).isSome = true := by
          rw [setCurSubs_isSome]
          exact hany
        obtain ⟨subs', hsubs'⟩ := Option.isSome_iff_exists.mp hsome
        simp only [setCurTasks, if_neg ht, hsubs'] at hset
        obtain rfl := (Option.some.inj hset).symm
        obtain ⟨c1, c2⟩ := setCurSubs_count id t.subtasks subs' hSt hsubs'
        refine ⟨?_, ?_, ?_⟩
        · rw [List.filter_cons]
          simp only [show ({ t with subtasks := subs' } : Task).current = t.current from rfl]
          rw [hT t (List.mem_cons_self t R)]
          rw [filter_eq_nil_of_all_false _ R hTr]
          rfl
        · rw [subsOfTasks_cons, List.filter_append, List.length_append]
          rw [show ({ t with subtasks := subs' } : Task).subtasks = subs' from rfl, c1]
          rw [filter_eq_nil_of_all_false _ _ hSr]
          rfl
        · simp [taskIds, c2]
      · have hfind' : findTasks id R = some r := by
          simpa [findTasks, ht, hany] using hfind
        have hnone : setCurSubs id t.subtasks = none := by
          apply option_eq_none_of_isSome_false
          rw [setCurSubs_isSome]
          simpa using hany
        simp only [setCurTasks, if_neg ht, hnone] at hset
        cases hrec : setCurTasks id R with
        | none => rw [hrec] at hset; simp at hset
        | some L'' =>
          rw [hrec] at hset
          simp only [Option.map_some'] at hset
          obtain rfl := (Option.some.inj hset).symm
          obtain ⟨c1, c2, c3⟩ := ih L'' r hTr hSr hrec hfind'
          refine ⟨?_, ?_, by simp [c3]⟩
          · rw [List.filter_cons]
            simp [hT t (List.mem_cons_self t R), c1]
          · rw [subsOfTasks_cons, List.filter_append, List.length_append]
            rw [filter_eq_nil_of_all_false _ _ hSt, c2]
            simp

theorem flatMap_eq_of_map_eq {α β : Type} (f : α → List β) (l1 l2 : List α)
    (h : l1.map f = l2.map f) : l1.flatMap f = l2.flatMap f := by
  induction l1 generalizing l2 with
  | nil =>
    cases l2 with
    | nil => rfl
    | cons b R => simp at h
  | cons a R ih =>
    cases l2 with
    | nil => simp at h
    | cons b R2 =>
      simp only [List.map_cons, List.cons.injEq] at h
      rw [List.flatMap_cons, List.flatMap_cons, h.1, ih R2 h.2]

theorem findTasks_kind (id : String) (L : List Task) (r : FindRes)
    (h : findTasks id L = some r) : r.kind = NodeKind.task ∨ r.kind = NodeKind.subtask := by
  induction L with
  | nil => simp [findTasks] at h
  | cons t R ih =>
    by_cases ht : t.id = id
    · simp only [findTasks, if_pos ht] at h
      rw [← Option.some.inj h]
      exact Or.inl rfl
    · by_cases hany : (t.subtasks.any fun s => decide (s.id = id)) = true
      · simp only [findTasks, if_neg ht, hany, if_true] at h
        rw [← Option.some.inj h]
        exact Or.inr rfl
      · exact ih (by simpa [findTasks, ht, hany] using h)

theorem setCurMs_count (id : String) (ms : List Milestone) :
    ∀ (ms' : List Milestone) (r : FindRes),
    (∀ m ∈ ms, m.current = false) →
    (∀ t ∈ ms.flatMap (fun m => m.tasks), t.current = false) →
    (∀ x ∈ subsOfMs ms, x.current = false) →
    setCurMs id ms = some ms' →
    findMs id ms = some r →
    (ms'.filter (fun m => m.current)).length = (if r.kind = NodeKind.milestone then 1 else 0) ∧
    ((ms'.flatMap (fun m => m.tasks)).filter (fun t => t.current)).length
      = (if r.kind = NodeKind.task then 1 else 0) ∧
    ((subsOfMs ms').filter (fun s => s.current)).length
      = (if r.kind = NodeKind.subtask then 1 else 0) ∧
    ms'.map msIds = ms.map msIds := by
  induction ms with
  | nil => intro ms' r _ _ _ hset _; simp [setCurMs] at hset
  | cons m R ih =>
    intro ms' r hM hT hS hset hfind
    have hTm : ∀ t ∈ m.tasks, t.current = false := by
      intro t hx
      exact hT t (by rw [List.flatMap_cons]; exact List.mem_append_left _ hx)
    have hTr : ∀ t ∈ R.flatMap (fun m => m.tasks), t.current = false := by
      intro t hx
      exact hT t (by rw [List.flatMap_cons]; exact List.mem_append_right _ hx)
    have hSm : ∀ x ∈ subsOfTasks m.tasks, x.current = false := by
      intro x hx
      exact hS x (by rw [subsOfMs_cons]; exact List.mem_append_left _ hx)
    have hSr : ∀ x ∈ subsOfMs R, x.current = false := by
      intro x hx
      exact hS x (by rw [subsOfMs_cons]; exact List.mem_append_right _ hx)
    have hMr : ∀ x ∈ R, x.current = false := fun x hx => hM x (List.mem_cons_of_mem _ hx)
    by_cases hm : m.id = id
    · have hr : r = { kind := .milestone, sibs := [] } := by
        simp only [findMs, if_pos hm] at hfind
        exact (Option.some.inj hfind).symm
      subst hr
      simp only [setCurMs, if_pos hm] at hset
      obtain rfl := (Option.some.inj hset).symm
      refine ⟨?_, ?_, ?_, by simp [msIds]⟩
      · rw [List.filter_cons]
        simp only [show ({ m with current := true } : Milestone).current = true from rfl,
          if_pos rfl]
        rw [filter_eq_nil_of_all_false _ R hMr]
        rfl
      · rw [List.flatMap_cons]
        rw [filter_eq_nil_of_all_false _ _ (fun x hx => hT x (by
          rw [List.flatMap_cons]
          simpa using hx))]
        rfl
      · rw [subsOfMs_cons]
        rw [filter_eq_nil_of_all_false _ _ (fun x hx => hS x (by
          rw [subsOfMs_cons]
          simpa using hx))]
        rfl
    · cases hft : findTasks id m.tasks with
      | some r' =>
        have hr : r' = r := by
          simpa [findMs, hm, hft] using hfind
        subst hr
        have hsome : (setCurTasks id m.tasks).isSome = true := by
          rw [setCurTasks_isSome, hft]
          rfl
        obtain ⟨ts', hts'⟩ := Option.isSome_iff_exists.mp hsome
        simp only [setCurMs, if_neg hm, hts'] at hset
        obtain rfl := (Option.some.inj hset).symm
        obtain ⟨c1, c2, c3⟩ := setCurTasks_count id m.tasks ts' r' hTm hSm hts' hft
        have hknm : ¬ r'.kind = NodeKind.milestone := by
          rcases findTasks_kind id m.tasks r' hft with h | h <;> simp [h]
        refine ⟨?_, ?_, ?_, ?_⟩
        · rw [List.filter_cons]
          simp only [show ({ m with tasks := ts' } : Milestone).current = m.current from rfl]
          rw [hM m (List.mem_cons_self m R)]
          rw [filter_eq_nil_of_all_false _ R hMr]
          simp [hknm]
        · rw [List.flatMap_cons, List.filter_append, List.length_append]
          rw [show ({ m with tasks := ts' } : Milestone).tasks = ts' from rfl, c1]
          rw [filter_eq_nil_of_all_false _ _ hTr]
          simp
        · rw [subsOfMs_cons, List.filter_append, List.length_append]
          rw [show ({ m with tasks := ts' } : Milestone).tasks = ts' from rfl, c2]
          rw [filter_eq_nil_of_all_false _ _ hSr]
          simp
        · rw [List.map_cons, List.map_cons]
          congr 1
          simp only [msIds]
          rw [flatMap_eq_of_map_eq taskIds ts' m.tasks c3]
      | none =>
        have hfind' : findMs id R = some r := by
          simpa [findMs, hm, hft] using hfind
        have hnone : setCurTasks id m.tasks = none := by
          apply option_eq_none_of_isSome_false
          rw [setCurTasks_isSome, hft]
          rfl
        simp only [setCurMs, if_neg hm, hnone] at hset
        cases hrec : setCurMs id R with
        | none => rw [hrec] at hset; simp at hset
        | some ms'' =>
          rw [hrec] at hset
          simp only [Option.map_some'] at hset
          obtain rfl := (Option.some.inj hset).symm
          obtain ⟨c1, c2, c3, c4⟩ := ih ms'' r hMr hTr hSr hrec hfind'
          refine ⟨?_, ?_, ?_, by simp [c4]⟩
          · rw [List.filter_cons]
            simp [hM m (List.mem_cons_self m R), c1]
          · rw [List.flatMap_cons, List.filter_append, List.length_append]
            rw [filter_eq_nil_of_all_false _ _ hTm, c2]
            simp
          · rw [subsOfMs_cons, List.filter_append, List.length_append]
            rw [filter_eq_nil_of_all_false _ _ hSm, c3]
            simp

theorem setCurPs_count (id : String) (ps : List Project) :
    ∀ (ps' : List Project) (r : FindRes),
    (∀ m ∈ ps.flatMap (fun p => p.milestones), m.current = false) →
    (∀ t ∈ (ps.flatMap (fun p => p.milestones)).flatMap (fun m => m.tasks), t.current = false) →
    (∀ x ∈ allSubs ps, x.current = false) →
    setCurPs id ps = some ps' →
    findPs id ps = some r →
    countCurMilestones ps' = (if r.kind = NodeKind.milestone then 1 else 0) ∧
    countCurTasks ps' = (if r.kind = NodeKind.task then 1 else 0) ∧
    countCurSubtasks ps' = (if r.kind = NodeKind.subtask then 1 else 0) ∧
    ps'.map (fun p => p.milestones.map msIds) = ps.map (fun p => p.milestones.map msIds) := by
  induction ps with
  | nil => intro ps' r _ _ _ hset _; simp [setCurPs] at hset
  | cons p R ih =>
    intro ps' r hM hT hS hset hfind
    have hMp : ∀ m ∈ p.milestones, m.current = false := by
      intro m hx
      exact hM m (by rw [List.flatMap_cons]; exact List.mem_append_left _ hx)
    have hMr : ∀ m ∈ R.flatMap (fun p => p.milestones), m.current = false := by
      intro m hx
      exact hM m (by rw [List.flatMap_cons]; exact List.mem_append_right _ hx)
    have hTp : ∀ t ∈ p.milestones.flatMap (fun m => m.tasks), t.current = false := by
      intro t hx
      refine hT t ?_
      rw [List.flatMap_cons, List.flatMap_append]
      exact List.mem_append_left _ hx
    have hTr : ∀ t ∈ (R.flatMap (fun p => p.milestones)).flatMap (fun m => m.tasks),
        t.current = false := by
      intro t hx
      refine hT t ?_
      rw [List.flatMap_cons, List.flatMap_append]
      exact List.mem_append_right _ hx
    have hSp : ∀ x ∈ subsOfMs p.milestones, x.current = false := by
      intro x hx
      refine hS x ?_
      rw [allSubs_cons]
      exact List.mem_append_left _ hx
    have hSr : ∀ x ∈ allSubs R, x.current = false := by
      intro x hx
      refine hS x ?_
      rw [allSubs_cons]
      exact List.mem_append_right _ hx
    cases hfm : findMs id p.milestones with
    | some r' =>
      have hr : r' = r := by
        simpa [findPs, hfm] using hfind
      subst hr
      have hsome : (setCurMs id p.milestones).isSome = true := by
        rw [setCurMs_isSome, hfm]
        rfl
      obtain ⟨ms', hms'⟩ := Option.isSome_iff_exists.mp hsome
      simp only [setCurPs, hfm, hms'] at hset
      obtain rfl := (Option.some.inj hset).symm
      obtain ⟨c1, c2, c3, c4⟩ := setCurMs_count id p.milestones ms' r' hMp hTp hSp hms' hfm
      refine ⟨?_, ?_, ?_, ?_⟩
      · rw [countCurMilestones_cons]
        rw [show ({ p with milestones := ms' } : Project).milestones = ms' from rfl, c1]
        rw [show countCurMilestones R
            = ((R.flatMap (fun p => p.milestones)).filter (fun m => m.current)).length from rfl]
        rw [filter_eq_nil_of_all_false _ _ hMr]
        simp
      · rw [countCurTasks_cons]
        rw [show ({ p with milestones := ms' } : Project).milestones = ms' from rfl, c2]
        rw [show countCurTasks R
            = (((R.flatMap (fun p => p.milestones)).flatMap (fun m => m.tasks)).filter
                (fun t => t.current)).length from rfl]
        rw [filter_eq_nil_of_all_false _ _ hTr]
        simp
      · rw [countCurSubtasks_cons]
        rw [show ({ p with milestones := ms' } : Project).milestones = ms' from rfl, c3]
        rw [show countCurSubtasks R
            = ((allSubs R).filter (fun s => s.current)).length from rfl]
        rw [filter_eq_nil_of_all_false _ _ hSr]
        simp
      · simp [c4]
    | none =>
      have hfind' : findPs id R = some r := by
        simpa [findPs, hfm] using hfind
      have hnone : setCurMs id p.milestones = none := by
        apply option_eq_none_of_isSome_false
        rw [setCurMs_isSome, hfm]
        rfl
      simp only [setCurPs, hfm, hnone] at hset
      cases hrec : setCurPs id R with
      | none => rw [hrec] at hset; simp at hset
      | some ps'' =>
        rw [hrec] at hset
        simp only [Option.map_some'] at hset
        obtain rfl := (Option.some.inj hset).symm
        obtain ⟨c1, c2, c3, c4⟩ := ih ps'' r hMr hTr hSr hrec hfind'
        refine ⟨?_, ?_, ?_, by simp [c4]⟩
        · rw [countCurMilestones_cons, filter_eq_nil_of_all_false _ _ hMp, c1]
          simp
        · rw [countCurTasks_cons, filter_eq_nil_of_all_false _ _ hTp, c2]
          simp
        · rw [countCurSubtasks_cons, filter_eq_nil_of_all_false _ _ hSp, c3]
          simp

theorem markParentMs_count (id : String) (ms : List Milestone)
    (h : ∀ m ∈ ms, m.current = false) :
    ((markParentMs id ms).filter (fun m => m.current)).length
      = if ms.any (msContains id) then 1 else 0 := by
  induction ms with
  | nil => rfl
  | cons m R ih =>
    by_cases hc : msContains id m = true
    · rw [markParentMs, if_pos hc, List.filter_cons]
      simp only [show ({ m with current := true } : Milestone).current = true from rfl, if_pos rfl]
      rw [filter_eq_nil_of_all_false _ R (fun x hx => h x (List.mem_cons_of_mem _ hx))]
      rw [List.any_cons, hc]
      rfl
    · rw [markParentMs, if_neg hc, List.filter_cons]
      rw [h m (List.mem_cons_self m R)]
      rw [List.any_cons, show msContains id m = false by simpa using hc]
      simpa using ih (fun x hx => h x (List.mem_cons_of_mem _ hx))

theorem markParentMs_tasks (id : String) (ms : List Milestone) :
    (markParentMs id ms).flatMap (fun m => m.tasks) = ms.flatMap (fun m => m.tasks) := by
  induction ms with
  | nil => rfl
  | cons m R ih =>
    by_cases hc : msContains id m = true
    · rw [markParentMs, if_pos hc, List.flatMap_cons, List.flatMap_cons]
    · rw [markParentMs, if_neg hc, List.flatMap_cons, List.flatMap_cons, ih]

theorem markParentMs_subs (id : String) (ms : List Milestone) :
    subsOfMs (markParentMs id ms) = subsOfMs ms := by
  rw [subsOfMs, subsOfMs, markParentMs_tasks]

theorem markParent_counts (id : String) (ps : List Project)
    (h : ∀ m ∈ ps.flatMap (fun p => p.milestones), m.current = false) :
    countCurMilestones (ps.map (fun p => { p with milestones := markParentMs id p.milestones }))
        = ps.countP (fun p => p.milestones.any (msContains id))
    ∧ countCurTasks (ps.map (fun p => { p with milestones := markParentMs id p.milestones }))
        = countCurTasks ps
    ∧ countCurSubtasks (ps.map (fun p => { p with milestones := markParentMs id p.milestones }))
        = countCurSubtasks ps := by
  induction ps with
  | nil => exact ⟨rfl, rfl, rfl⟩
  | cons p R ih =>
    have hp : ∀ m ∈ p.milestones, m.current = false := by
      intro m hx
      exact h m (by rw [List.flatMap_cons]; exact List.mem_append_left _ hx)
    have hR : ∀ m ∈ R.flatMap (fun p => p.milestones), m.current = false := by
      intro m hx
      exact h m (by rw [List.flatMap_cons]; exact List.mem_append_right _ hx)
    obtain ⟨i1, i2, i3⟩ := ih hR
    refine ⟨?_, ?_, ?_⟩
    · rw [List.map_cons, countCurMilestones_cons, i1, List.countP_cons]
      rw [show ({ p with milestones := markParentMs id p.milestones } : Project).milestones
          = markParentMs id p.milestones from rfl]
      rw [markParentMs_count id p.milestones hp]
      by_cases hq : (p.milestones.any (msContains id)) = true
      · rw [hq]
        simp [Nat.add_comm]
      · rw [show p.milestones.any (msContains id) = false by simpa using hq]
        simp
    · rw [List.map_cons, countCurTasks_cons, countCurTasks_cons, i2]
      rw [show ({ p with milestones := markParentMs id p.milestones } : Project).milestones
          = markParentMs id p.milestones from rfl]
      rw [markParentMs_tasks]
    · rw [List.map_cons, countCurSubtasks_cons, countCurSubtasks_cons, i3]
      rw [show ({ p with milestones := markParentMs id p.milestones } : Project).milestones
          = markParentMs id p.milestones from rfl]
      rw [markParentMs_subs]

theorem countP_eq_one_of_nodup {α : Type} (f : α → List String) (q : α → Bool) (id : String)
    (l : List α) (hn : (l.flatMap f).Nodup)
    (himp : ∀ a ∈ l, q a = true → id ∈ f a)
    (hex : ∃ a ∈ l, q a = true) : l.countP q = 1 := by
  induction l with
  | nil =>
    obtain ⟨a, ha, _⟩ := hex
    simp at ha
  | cons a L ih =>
    rw [List.flatMap_cons] at hn
    rw [List.countP_cons]
    by_cases hqa : q a = true
    · have hida : id ∈ f a := himp a (List.mem_cons_self a L) hqa
      have hzero : L.countP q = 0 := by
        rw [List.countP_eq_zero]
        intro b hb hqb
        have hidb : id ∈ f b := himp b (List.mem_cons_of_mem _ hb) hqb
        exact (List.disjoint_of_nodup_append hn) hida (List.mem_flatMap.mpr ⟨b, hb, hidb⟩)
      rw [hzero, hqa]
      rfl
    · have hex' : ∃ b ∈ L, q b = true := by
        obtain ⟨b, hb, hqb⟩ := hex
        rcases List.mem_cons.mp hb with rfl | hb'
        · exact absurd hqb hqa
        · exact ⟨b, hb', hqb⟩
      rw [ih hn.of_append_right (fun b hb => himp b (List.mem_cons_of_mem _ hb)) hex']
      simp [hqa]

theorem qual_imp_mem (id : String) (p : Project)
    (h : p.milestones.any (msContains id) = true) : id ∈ projIds p := by
  rw [List.any_eq_true] at h
  obtain ⟨m, hm, hc⟩ := h
  rw [msContains_eq_mem, decide_eq_true_eq] at hc
  rw [projIds, List.mem_flatMap]
  exact ⟨m, hm, List.mem_cons_of_mem _ hc⟩

theorem findTasks_some_contains (id : String) (L : List Task) (r : FindRes)
    (h : findTasks id L = some r) :
    (L.any fun t => t.id == id || t.subtasks.any (fun s => s.id == id)) = true := by
  induction L with
  | nil => simp [findTasks] at h
  | cons t R ih =>
    rw [List.any_cons]
    by_cases ht : t.id = id
    · simp [ht]
    · by_cases hany : (t.subtasks.any fun s => decide (s.id = id)) = true
      · have hx : (t.subtasks.any fun s => s.id == id) = true := by
          rw [List.any_eq_true] at hany ⊢
          obtain ⟨s, hs, hid⟩ := hany
          exact ⟨s, hs, by simpa using hid⟩
        simp [hx]
      · have h' : findTasks id R = some r := by
          simpa [findTasks, ht, hany] using h
        simp [ih h']

theorem findMs_some_contains (id : String) (ms : List Milestone) (r : FindRes)
    (h : findMs id ms = some r) (hk : ¬ r.kind = NodeKind.milestone) :
    ms.any (msContains id) = true := by
  induction ms with
  | nil => simp [findMs] at h
  | cons m R ih =>
    by_cases hm : m.id = id
    · simp only [findMs, if_pos hm] at h
      rw [← Option.some.inj h] at hk
      simp at hk
    · cases hft : findTasks id m.tasks with
      | some r' =>
        rw [List.any_cons]
        have : msContains id m = true := findTasks_some_contains id m.tasks r' hft
        simp [this]
      | none =>
        rw [List.any_cons]
        have : findMs id R = some r := by
          simpa [findMs, hm, hft] using h
        simp [ih this]

theorem findPs_some_qual (id : String) (ps : List Project) (r : FindRes)
    (h : findPs id ps = some r) (hk : ¬ r.kind = NodeKind.milestone) :
    ∃ p ∈ ps, p.milestones.any (msContains id) = true := by
  induction ps with
  | nil => simp [findPs] at h
  | cons p R ih =>
    cases hfm : findMs id p.milestones with
    | some r' =>
      have hr : r' = r := by
        simpa [findPs, hfm] using h
      rw [hr] at hfm
      exact ⟨p, List.mem_cons_self p R, findMs_some_contains id p.milestones r hfm hk⟩
    | none =>
      have : findPs id R = some r := by
        simpa [findPs, hfm] using h
      obtain ⟨p', hp', hq⟩ := ih this
      exact ⟨p', List.mem_cons_of_mem _ hp', hq⟩

theorem countP_qual_eq (id : String) (ps1 : List Project) : ∀ ps2 : List Project,
    ps1.map (fun p => p.milestones.map msIds) = ps2.map (fun p => p.milestones.map msIds) →
    ps1.countP (fun p => p.milestones.any (msContains id))
      = ps2.countP (fun p => p.milestones.any (msContains id)) := by
  induction ps1 with
  | nil =>
    intro ps2 h
    cases ps2 with
    | nil => rfl
    | cons p R => simp at h
  | cons p R ih =>
    intro ps2 h
    cases ps2 with
    | nil => simp at h
    | cons p2 R2 =>
      simp only [List.map_cons, List.cons.injEq] at h
      rw [List.countP_cons, List.countP_cons, ih R2 h.2,
        anyContains_eq_of_msIds id p.milestones p2.milestones h.1]

theorem clear_msIds_map (ps : List Project) :
    (clearCurrentFlags ps).map (fun p => p.milestones.map msIds)
      = ps.map (fun p => p.milestones.map msIds) := by
  rw [clearCurrentFlags, List.map_map]
  apply List.map_congr_left
  intro p _
  simp [Function.comp, clearProject, List.map_map, msIds_clearMilestone]

theorem all_false_of_countCurMilestones_zero (ps : List Project)
    (h : countCurMilestones ps = 0) :
    ∀ m ∈ ps.flatMap (fun p => p.milestones), m.current = false := by
  rw [countCurMilestones, List.length_eq_zero] at h
  intro m hm
  by_cases hc : m.current = true
  · have : m ∈ (ps.flatMap (fun p => p.milestones)).filter (fun m => m.current) :=
      List.mem_filter.mpr ⟨hm, hc⟩
    rw [h] at this
    simp at this
  · simpa using hc

/-- C1 (amended): set-current clears every current flag in the document, sets
the matched node's flag, and for a task or subtask match marks the owning
milestone; with unique node ids the result has exactly one current milestone
and a current task (resp. subtask) exactly when the match is a task
(resp. subtask) — in particular a subtask match leaves the task level of its
lookup chain with zero current tasks, not one. -/
theorem cmdSetCurrent_focus_amended (now id : String) (d : Document) (k : NodeKind)
    (hn : (docIds d.projects).Nodup)
    (hk : (findPs id d.projects).map (fun r => r.kind) = some k) :
    ∃ d', cmdSetCurrent now id d = some d' ∧
      countCurMilestones d'.projects = 1 ∧
      countCurTasks d'.projects = (if k = NodeKind.task then 1 else 0) ∧
      countCurSubtasks d'.projects = (if k = NodeKind.subtask then 1 else 0) := by
  cases hfind : findPs id d.projects with
  | none => rw [hfind] at hk; simp at hk
  | some r =>
    rw [hfind] at hk
    have hkr : r.kind = k := by simpa using hk
    subst hkr
    have hfind0 : findPs id (clearCurrentFlags d.projects)
        = some { kind := r.kind, sibs := r.sibs.map clearSub } := by
      rw [findPs_clear, hfind]
      rfl
    have hsome : (setCurPs id (clearCurrentFlags d.projects)).isSome = true := by
      rw [setCurPs_isSome, hfind0]
      rfl
    obtain ⟨ps1, hps1⟩ := Option.isSome_iff_exists.mp hsome
    obtain ⟨c1, c2, c3, c4⟩ := setCurPs_count id (clearCurrentFlags d.projects) ps1
      { kind := r.kind, sibs := r.sibs.map clearSub }
      (clear_milestones_current_false d.projects)
      (clear_tasks_current_false d.projects)
      (clear_subs_current_false d.projects) hps1 hfind0
    have hstruct : ps1.map (fun p => p.milestones.map msIds)
        = d.projects.map (fun p => p.milestones.map msIds) :=
      c4.trans (clear_msIds_map d.projects)
    by_cases hkind : r.kind = NodeKind.milestone
    · refine ⟨{ meta := { d.meta with lastUpdated := now }, projects := ps1 }, ?_, ?_, ?_, ?_⟩
      · simp [cmdSetCurrent, hfind, hkind, hps1]
      · rw [show countCurMilestones ps1 = 1 by rw [c1, hkind]; rfl]
      · rw [c2, hkind]
      · rw [c3, hkind]
    · have hM1 : ∀ m ∈ ps1.flatMap (fun p => p.milestones), m.current = false := by
        apply all_false_of_countCurMilestones_zero
        rw [c1, if_neg hkind]
      obtain ⟨g1, g2, g3⟩ := markParent_counts id ps1 hM1
      have hq1 : d.projects.countP (fun p => p.milestones.any (msContains id)) = 1 := by
        apply countP_eq_one_of_nodup projIds _ id d.projects hn
          (fun a _ ha => qual_imp_mem id a ha)
        exact findPs_some_qual id d.projects r hfind hkind
      refine ⟨⟨{ d.meta with lastUpdated := now }, ps1.map (fun p => { p with milestones := markParentMs id p.milestones })⟩, ?_, ?_, ?_, ?_⟩
      · simp [cmdSetCurrent, hfind, hkind, hps1]
      · rw [g1, countP_qual_eq id ps1 d.projects hstruct, hq1]
      · rw [g2, c2]
      · rw [g3, c3]

/-- Witness for C1's amended theorem at a concrete document and a task id. -/
theorem cmdSetCurrent_focus_witness :
    (docIds wit1doc.projects).Nodup
  ∧ (findPs "t1" wit1doc.projects).map (fun r => r.kind) = some NodeKind.task
  ∧ ∃ d', cmdSetCurrent "TS" "t1" wit1doc = some d'
      ∧ countCurMilestones d'.projects = 1
      ∧ countCurTasks d'.projects = (if NodeKind.task = NodeKind.task then 1 else 0)
      ∧ countCurSubtasks d'.projects = (if NodeKind.task = NodeKind.subtask then 1 else 0) := by
  exact ⟨by decide, by decide,
    cmdSetCurrent_focus_amended "TS" "t1" wit1doc NodeKind.task (by decide) (by decide)⟩

/-- Counterexample to C1 as stated: setting a subtask current marks the
subtask and its owning milestone but not its parent task, so the task level —
which the lookup chain to a subtask passes through — ends with zero
current nodes rather than exactly one. -/
theorem cmdSetCurrent_tasklevel_counterexample :
    (findPs "s" ce1doc.projects).map (fun r => r.kind) = some NodeKind.subtask
  ∧ (cmdSetCurrent "TS" "s" ce1doc).map
      (fun d => (countCurMilestones d.projects, countCurTasks d.projects,
        countCurSubtasks d.projects)) = some (1, 0, 1) := by
  exact ⟨by decide, by decide⟩

end HQ
